import Mathlib

/-!
Verification of the zip package of the cae repository (src/zip/write.go)
against its natural-language specification.

The Go code is shallowly embedded: the filesystem is a flat finite map from
slash-split component paths to nodes (directories or files), zip archives are
lists of members, and every fallible operation returns an explicit result in
an error monad.  The path-string helpers of the Go standard library
(path.Join, path.Dir, path.Base, strings.Replace) are modelled on component
lists; the model does not resolve dot-dot components, so theorems whose
faithfulness depends on it carry explicit no-dot-dot hypotheses.
-/

set_option autoImplicit false

namespace Cae

/-! ## Path strings as component lists -/

/-- Splits a character list at every slash, keeping empty chunks. -/
def splitCharsAux : List Char → List Char → List (List Char)
  | [], acc => [acc.reverse]
  | c :: rest, acc =>
    if c = '/' then acc.reverse :: splitCharsAux rest [] else splitCharsAux rest (c :: acc)

/-- Component filter used by the cleaning in Go's path.Clean: drop empty
components and single dots. -/
def goodComp (s : String) : Bool := s ≠ "" && s ≠ "."

/-- Splits a path string into its cleaned slash-separated components. -/
def splitPath (s : String) : List String :=
  ((splitCharsAux s.data []).map (fun l => String.mk l)).filter goodComp

/-- Joins components with single slashes (inverse of splitPath on clean
components). -/
def joinComps : List String → String
  | [] => ""
  | [c] => c
  | c :: c' :: rest => c ++ "/" ++ joinComps (c' :: rest)

/-- Model of Go's path.Join on two arguments: concatenate and clean. -/
def pathJoinS (a b : String) : String := joinComps (splitPath a ++ splitPath b)

/-- Model of Go's path.Dir: all components but the last. -/
def pathDirS (s : String) : String := joinComps (splitPath s).dropLast

/-- Model of Go's path.Base: the last component, a dot for an empty path. -/
def pathBaseS (s : String) : String :=
  match (splitPath s).getLast? with
  | some c => c
  | none => "."

/-- Model of strings.Replace(s, backslash, slash, -1). -/
def normSlashes (s : String) : String :=
  String.mk (s.data.map (fun c => if c = '\\' then '/' else c))

/-- Model of strings.HasSuffix(s, slash): the last character is a slash. -/
def endsSlash (s : String) : Bool := s.data.getLast? = some '/'

/-- Boolean list-prefix test for component paths. -/
def compsPref : List String → List String → Bool
  | [], _ => true
  | _ :: _, [] => false
  | a :: as_, b :: bs => a == b && compsPref as_ bs

/-- String p is a prefix of s, as plain string concatenation. -/
def strPref (p s : String) : Prop := ∃ t, s = p ++ t

/-- A component that the splitter can emit: nonempty, not a dot, slash-free. -/
def cleanComp (c : String) : Bool := goodComp c && c.data.all (fun x => x ≠ '/')

/-- All components of a list are clean. -/
def cleanComps (l : List String) : Bool := l.all cleanComp

theorem cleanComp_iff {c : String} :
    cleanComp c = true ↔ goodComp c = true ∧ '/' ∉ c.data := by
  constructor
  · intro h
    have h' := (Bool.and_eq_true _ _).mp h
    refine ⟨h'.1, ?_⟩
    intro hmem
    have := (List.all_eq_true).1 h'.2 '/' hmem
    simp at this
  · rintro ⟨hg, hns⟩
    apply (Bool.and_eq_true _ _).mpr
    refine ⟨hg, List.all_eq_true.2 ?_⟩
    intro x hx
    simp only [decide_eq_true_eq]
    intro hxx
    exact hns (hxx ▸ hx)

theorem splitCharsAux_no_slash {xs : List Char} (rest : List Char) (acc : List Char)
    (h : '/' ∉ xs) :
    splitCharsAux (xs ++ rest) acc = splitCharsAux rest (xs.reverse ++ acc) := by
  induction xs generalizing acc with
  | nil => simp
  | cons c cs ih =>
    have hc : c ≠ '/' := by
      intro hcc; exact h (by simp [hcc])
    have hcs : '/' ∉ cs := by
      intro hmem; exact h (by simp [hmem])
    have h1 : splitCharsAux ((c :: cs) ++ rest) acc = splitCharsAux (cs ++ rest) (c :: acc) := by
      simp [splitCharsAux, hc]
    rw [h1, ih _ hcs]
    simp

theorem splitCharsAux_slash (rest : List Char) (acc : List Char) :
    splitCharsAux ('/' :: rest) acc = acc.reverse :: splitCharsAux rest [] := by
  simp [splitCharsAux]

theorem splitCharsAux_mem_no_slash :
    ∀ (ds : List Char) (acc : List Char), '/' ∉ acc →
      ∀ l ∈ splitCharsAux ds acc, '/' ∉ l := by
  intro ds
  induction ds with
  | nil =>
    intro acc hacc l hl
    simp only [splitCharsAux, List.mem_singleton] at hl
    subst hl
    simpa using hacc
  | cons c cs ih =>
    intro acc hacc l hl
    by_cases hc : c = '/'
    · subst hc
      rw [splitCharsAux_slash] at hl
      rcases List.mem_cons.1 hl with h1 | h1
      · subst h1; simpa using hacc
      · exact ih [] (by simp) l h1
    · simp only [splitCharsAux, if_neg hc] at hl
      refine ih (c :: acc) ?_ l hl
      simp only [List.mem_cons, not_or]
      exact ⟨fun h => hc h.symm, hacc⟩

theorem data_append (a b : String) : (a ++ b).data = a.data ++ b.data := rfl

theorem mk_data (s : String) : String.mk s.data = s := rfl

theorem splitPath_single {c : String} (hc : cleanComp c = true) : splitPath c = [c] := by
  obtain ⟨hg, hns⟩ := cleanComp_iff.1 hc
  have : splitCharsAux c.data [] = [c.data] := by
    have := splitCharsAux_no_slash [] [] hns
    simpa [splitCharsAux] using this
  simp [splitPath, this, hg, mk_data]

theorem joinComps_cons (c : String) (rest : List String) (h : rest ≠ []) :
    joinComps (c :: rest) = c ++ "/" ++ joinComps rest := by
  match rest with
  | [] => exact absurd rfl h
  | c' :: rest' => rfl

theorem splitPath_joinComps {l : List String} (h : cleanComps l = true) :
    splitPath (joinComps l) = l := by
  induction l with
  | nil => simp [joinComps, splitPath, splitCharsAux, goodComp]
  | cons c rest ih =>
    have hc : cleanComp c = true := (List.all_eq_true).1 h c (by simp)
    have hrest : cleanComps rest = true := by
      apply List.all_eq_true.2
      intro x hx
      exact (List.all_eq_true).1 h x (by simp [hx])
    obtain ⟨hg, hns⟩ := cleanComp_iff.1 hc
    match rest with
    | [] => exact splitPath_single hc
    | c' :: rest' =>
      rw [joinComps_cons c (c' :: rest') (by simp)]
      have hdata : (c ++ "/" ++ joinComps (c' :: rest')).data
          = c.data ++ '/' :: (joinComps (c' :: rest')).data := by
        simp [data_append]
      unfold splitPath
      rw [hdata, splitCharsAux_no_slash _ [] hns]
      simp only [List.append_nil, splitCharsAux_slash]
      simp only [List.map_cons, List.filter_cons, List.reverse_reverse, mk_data, hg]
      have ihx := ih hrest
      unfold splitPath at ihx
      rw [ihx]
      simp

theorem splitPath_clean (s : String) : cleanComps (splitPath s) = true := by
  apply List.all_eq_true.2
  intro c hc
  unfold splitPath at hc
  have hg : goodComp c = true := List.of_mem_filter hc
  have hmem := (List.mem_filter.1 hc).1
  obtain ⟨l, hl, rfl⟩ := List.mem_map.1 hmem
  have hns : '/' ∉ l := splitCharsAux_mem_no_slash s.data [] (by simp) l hl
  exact cleanComp_iff.2 ⟨hg, hns⟩

theorem cleanComps_append {a b : List String} (ha : cleanComps a = true)
    (hb : cleanComps b = true) : cleanComps (a ++ b) = true := by
  apply List.all_eq_true.2
  intro x hx
  rcases List.mem_append.1 hx with h | h
  · exact List.all_eq_true.1 ha x h
  · exact List.all_eq_true.1 hb x h

theorem splitPath_pathJoinS (a b : String) :
    splitPath (pathJoinS a b) = splitPath a ++ splitPath b := by
  unfold pathJoinS
  exact splitPath_joinComps (cleanComps_append (splitPath_clean a) (splitPath_clean b))

/-! ## Filesystem and archive data model -/

/-- Content of a regular file: either raw bytes or an encoded zip archive
(member name, declared uncompressed size, member body).  The binary encoding
of archives is the external codec's concern, so an archive file is modelled
by the member list the codec would yield for it. -/
inductive FileData where
  | bytes (s : String)
  | zipData (ms : List (String × Nat × FileData))

/-- Byte size a stat reports for a file: the length of its bytes; for an
encoded archive the codec-determined size is abstracted as the sum of the
declared member sizes. -/
def FileData.size : FileData → Nat
  | .bytes s => s.length
  | .zipData ms => ms.foldl (fun a m => a + m.2.1) 0

/-- A filesystem node: a directory or a regular file. -/
inductive FsNode where
  | dir
  | file (d : FileData)

def FsNode.isDirB : FsNode → Bool
  | .dir => true
  | .file _ => false

def FsNode.nodeSize : FsNode → Nat
  | .dir => 0
  | .file d => d.size

/-- The filesystem: an ordered flat map from component paths to nodes.
Directory listing order is the entry order, matching the spec's statement
that directory iteration order is whatever the filesystem returns. -/
structure FS where
  entries : List (List String × FsNode)

/-- Error outcomes of the modelled filesystem and codec calls.  outOfFuel is
a model artifact of the bounded recursion in packDir and is never reached by
the top-level entry points at the depths used here; custom carries a
visitor-chosen payload. -/
inductive Err where
  | enoent
  | eisdir
  | enotdir
  | einval
  | outOfFuel
  | nilDeref
  | custom (n : Nat)
deriving DecidableEq, Repr

def FS.lookup (fs : FS) (p : List String) : Option FsNode :=
  (fs.entries.find? (fun e => e.1 == p)).map (fun e => e.2)

/-- Sets or inserts a node; an existing key is overwritten in place, a new key
is appended at the end. -/
def FS.setNode (fs : FS) (p : List String) (n : FsNode) : FS :=
  if (fs.lookup p).isSome then
    ⟨fs.entries.map (fun e => if e.1 == p then (p, n) else e)⟩
  else ⟨fs.entries ++ [(p, n)]⟩

/-- Model of os.MkdirAll: walk down from the root creating missing
directories; an existing file on the way aborts with ENOTDIR and creates
nothing further (matching the stat-then-recurse structure of os.MkdirAll). -/
def mkdirWalk (fs : FS) (done : List String) : List String → FS × Except Err Unit
  | [] => (fs, .ok ())
  | c :: rest =>
    let cur := done ++ [c]
    match fs.lookup cur with
    | some .dir => mkdirWalk fs cur rest
    | some (.file _) => (fs, .error .enotdir)
    | none => mkdirWalk (fs.setNode cur .dir) cur rest

def mkdirAll (fs : FS) (p : List String) : FS × Except Err Unit := mkdirWalk fs [] p

/-- Model of os.Create: truncates an existing file or creates a new one whose
parent directory exists; fails with EISDIR on a directory, ENOTDIR when the
parent is a file, ENOENT when the parent is missing. -/
def osCreate (fs : FS) (p : List String) : FS × Except Err Unit :=
  match p with
  | [] => (fs, .error .eisdir)
  | _ :: _ =>
    match fs.lookup p with
    | some .dir => (fs, .error .eisdir)
    | some (.file _) => (fs.setNode p (.file (.bytes "")), .ok ())
    | none =>
      let parent := p.dropLast
      if parent.isEmpty then (fs.setNode p (.file (.bytes "")), .ok ())
      else
        match fs.lookup parent with
        | some .dir => (fs.setNode p (.file (.bytes "")), .ok ())
        | some (.file _) => (fs, .error .enotdir)
        | none => (fs, .error .enoent)

/-- Model of os.RemoveAll: removes the node and everything below it; its error
is ignored by all callers in the source. -/
def FS.removeAll (fs : FS) (p : List String) : FS :=
  ⟨fs.entries.filter (fun e => !compsPref p e.1)⟩

/-- Name under which q is a direct child of p, if it is one. -/
def childName (p q : List String) : Option String :=
  if q.dropLast = p then q.getLast? else none

/-- Model of Readdir: the immediate children of p, in entry order. -/
def FS.readdir (fs : FS) (p : List String) : List (String × FsNode) :=
  fs.entries.filterMap (fun e => (childName p e.1).map (fun n => (n, e.2)))

/-- One archive member: name, declared uncompressed size (the header field),
and the streamed body.  The same shape serves the read side (zip.File: the
declared size is what FileInfo reports) and the write side (zip.Writer). -/
structure ZEntry where
  name : String
  declSize : Nat
  body : FileData

/-- Metadata handed to visitor callbacks (os.FileInfo). -/
structure FInfo where
  name : String
  size : Nat
  isDir : Bool
deriving DecidableEq, Repr

/-- FileInfo of an archive entry: base name, declared size, directory if the
name has a trailing slash (zip.FileHeader.FileInfo semantics). -/
def ZEntry.finfo (f : ZEntry) : FInfo :=
  { name := pathBaseS f.name, size := f.declSize, isDir := endsSlash f.name }

/-- Visitor middleware type of ExtractToFunc and PackToFunc. -/
def Visitor : Type := String → FInfo → Except Err Unit

/-- Model of the cae File struct: one logical archive entry of a Session.
Modelled from the spec: the ArchiveEntry record (the struct declaration is
outside src/zip/write.go) carries the slash-normalized member name and the
bound filesystem path its content is sourced from on re-pack. -/
structure FileEnt where
  name : String
  absPath : String
deriving DecidableEq, Repr

/-- Model of the cae ZipArchive struct.  Modelled from the spec: the
ArchiveSession record (the struct declaration is outside src/zip/write.go)
with the fields write.go uses: backing file name, permission, the
writer/dirty flags, the opened archive's member list (ReadCloser, absent when
the Session was not opened from a file), and the logical entry list.
writerOut accumulates the members written to the bound destination writer. -/
structure ZipArchive where
  FileName : String
  Permission : Nat
  isHasWriter : Bool
  isHasChanged : Bool
  ReadCloser : Option (List ZEntry)
  files : List FileEnt
  writerOut : List ZEntry

/-- Promoted field access z.File: the opened archive's members.  On a nil
ReadCloser the Go field access would fault; the embedding totalizes it to the
empty list and the theorems that depend on it carry an explicit ReadCloser
hypothesis instead. -/
def ZipArchive.File (z : ZipArchive) : List ZEntry := z.ReadCloser.getD []

/-! ## Embedding of src/zip/write.go -/

/-- Model of defaultExtractFunc: only prints when Verbose is set and never
fails; printing is outside the model. -/
def defaultExtractFunc : Visitor := fun _ _ => .ok ()

/-- Model of defaultPackFunc: only prints when Verbose is set and never
fails. -/
def defaultPackFunc : Visitor := fun _ _ => .ok ()

/-- Embedding of the package-level extractFile (write.go:29).  The result of
os.MkdirAll is ignored by the source.  The f.Open error branch cannot fire in
the model (the codec is assumed able to open its own members).  The source
discards the error of os.Create into the blank identifier and tests the stale
err instead, so on a failed create it proceeds to io.Copy through the nil
file handle, which fails with os.ErrInvalid — modelled as einval. -/
def extractFile (f : ZEntry) (destPath : String) (fs : FS) : FS × Except Err Unit :=
  let fs1 := (mkdirAll fs (splitPath destPath ++ (splitPath f.name).dropLast)).1
  match osCreate fs1 (splitPath destPath ++ splitPath f.name) with
  | (fs2, .ok _) =>
    (fs2.setNode (splitPath destPath ++ splitPath f.name) (.file f.body), .ok ())
  | (fs2, .error _) => (fs2, .error .einval)

/-- Embedding of isEntry (write.go:47). -/
def isEntry (name : String) (entries : List String) : Bool :=
  entries.any (fun e => e == name)

/-- The per-entry loop of ExtractToFunc (write.go:75-113), one iteration per
archive member, threading the filesystem. -/
def extractLoop (destPath : String) (fn : Visitor) (entries : List String) :
    List ZEntry → FS → FS × Except Err Unit
  | [], fs => (fs, .ok ())
  | f :: rest, fs =>
    let f' : ZEntry := { f with name := normSlashes f.name }
    if endsSlash f'.name then
      if !entries.isEmpty then
        if isEntry f'.name entries then
          match fn f'.name f'.finfo with
          | .error e => (fs, .error e)
          | .ok _ =>
            extractLoop destPath fn entries rest
              (mkdirAll fs (splitPath destPath ++ splitPath f'.name)).1
        else extractLoop destPath fn entries rest fs
      else
        match fn f'.name f'.finfo with
        | .error e => (fs, .error e)
        | .ok _ =>
          extractLoop destPath fn entries rest
            (mkdirAll fs (splitPath destPath ++ splitPath f'.name)).1
    else
      if !entries.isEmpty then
        if isEntry f'.name entries then
          match fn f'.name f'.finfo with
          | .error e => (fs, .error e)
          | .ok _ =>
            match extractFile f' destPath fs with
            | (fs1, .ok _) => extractLoop destPath fn entries rest fs1
            | (fs1, .error e) => (fs1, .error e)
        else extractLoop destPath fn entries rest fs
      else
        match fn f'.name f'.finfo with
        | .error e => (fs, .error e)
        | .ok _ =>
          match extractFile f' destPath fs with
          | (fs1, .ok _) => extractLoop destPath fn entries rest fs1
          | (fs1, .error e) => (fs1, .error e)

/-- Embedding of ZipArchive.ExtractToFunc (write.go:67). -/
def ZipArchive.ExtractToFunc (z : ZipArchive) (destPath : String) (fn : Visitor)
    (entries : List String) (fs : FS) : FS × Except Err Unit :=
  let destPath := normSlashes destPath
  let fs1 := (mkdirAll fs (splitPath destPath)).1
  extractLoop destPath fn entries z.File fs1

/-- Embedding of ZipArchive.ExtractTo (write.go:119). -/
def ZipArchive.ExtractTo (z : ZipArchive) (destPath : String)
    (entries : List String) (fs : FS) : FS × Except Err Unit :=
  z.ExtractToFunc destPath defaultExtractFunc entries fs

/-- Modelled from the spec: the package-level copy helper called at
write.go:132 (its declaration is outside src/zip/write.go).  Per the spec the
entry's content is copied from its bound filesystem path into the scratch
tree, so it reads the source file, ensures the destination's parent
directories, writes the destination file, and propagates I/O failures. -/
def fsCopy (src dst : String) (fs : FS) : FS × Except Err Unit :=
  match fs.lookup (splitPath src) with
  | some (.file d) =>
    let fs1 := (mkdirAll fs (splitPath dst).dropLast).1
    match osCreate fs1 (splitPath dst) with
    | (fs2, .ok _) => (fs2.setNode (splitPath dst) (.file d), .ok ())
    | (fs2, .error e) => (fs2, .error e)
  | some .dir => (fs, .error .eisdir)
  | none => (fs, .error .enoent)

/-- Embedding of the method ZipArchive.extractFile (write.go:123): resolve
the entry against the opened archive unless the Session targets a writer,
falling back to copying from the entry's bound path.  Dereferencing a nil
ReadCloser would fault in Go; the model returns nilDeref (Flush never reaches
this case). -/
def ZipArchive.extractFile (z : ZipArchive) (f : FileEnt) (fs : FS) :
    FS × Except Err Unit :=
  if !z.isHasWriter then
    match z.ReadCloser with
    | none => (fs, .error .nilDeref)
    | some members =>
      match members.find? (fun zf => f.name == zf.name) with
      | some zf => Cae.extractFile zf f.absPath fs
      | none => fsCopy f.absPath f.name fs
  else fsCopy f.absPath f.name fs

/-- Model of os.TempDir on the target platform. -/
def tempDir : String := "/tmp"

/-- The scratch path Flush derives (write.go:142):
path.Join(os.TempDir(), "cae", path.Base(z.FileName)). -/
def tmpPathOf (fileName : String) : String :=
  pathJoinS (pathJoinS tempDir "cae") (pathBaseS fileName)

/-- The entry-materialization loop of Flush (write.go:146-156): directory
entries become scratch directories; other entries have their Name rewritten
in place to the scratch-joined path (the Session's files hold pointers, so
the rewrite persists) and are materialized via z.extractFile.  Returns the
updated entry list alongside the filesystem and the outcome. -/
def flushLoop (z : ZipArchive) (tmpStr : String) :
    List FileEnt → FS → List FileEnt × FS × Except Err Unit
  | [], fs => ([], fs, .ok ())
  | f :: rest, fs =>
    if endsSlash f.name then
      let fs1 := (mkdirAll fs (splitPath tmpStr ++ splitPath f.name)).1
      let r := flushLoop z tmpStr rest fs1
      (f :: r.1, r.2)
    else
      let f' : FileEnt := { f with name := pathJoinS tmpStr f.name }
      match z.extractFile f' fs with
      | (fs1, .ok _) =>
        let r := flushLoop z tmpStr rest fs1
        (f' :: r.1, r.2)
      | (fs1, .error e) => (f' :: rest, fs1, .error e)

/-- Embedding of packFile (write.go:209).  The header is created before the
source file is opened, and the declared uncompressed size is the uint32
truncation of the stat size.  On a failed open or copy the member header has
already been emitted with no body. -/
def packFile (srcFile recPath : String) (zw : List ZEntry) (fi : FInfo) (fs : FS) :
    List ZEntry × Except Err Unit :=
  if fi.isDir then
    (zw ++ [{ name := recPath ++ "/", declSize := 0, body := .bytes "" }], .ok ())
  else
    let header : ZEntry := { name := recPath, declSize := fi.size % 2 ^ 32, body := .bytes "" }
    match fs.lookup (splitPath srcFile) with
    | some (.file d) => (zw ++ [{ header with body := d }], .ok ())
    | some .dir => (zw ++ [header], .error .eisdir)
    | none => (zw ++ [header], .error .enoent)

/-- Modelled from the spec: the global exclusion predicate globalFilter used
by packDir (its declaration is outside src/zip/write.go); the spec says it
filters names in an externally configured ignore set such as VCS metadata
directories, modelled here as the git metadata name. -/
def globalFilter (name : String) : Bool := name == ".git"

/-- The child loop of packDir (write.go:181-205), parameterized by the
recursive call for subdirectories.  Note the source packs a directory header
from srcPath (not curPath), line 194, which is immaterial because the
directory branch of packFile ignores the source path. -/
def packChildren (go : String → String → List ZEntry → List ZEntry × Except Err Unit)
    (srcPath recPath : String) (fs : FS) (fn : Visitor) :
    List (String × FsNode) → List ZEntry → List ZEntry × Except Err Unit
  | [], zw => (zw, .ok ())
  | (name, node) :: rest, zw =>
    if globalFilter name then packChildren go srcPath recPath fs fn rest zw
    else
      let curPath := srcPath ++ "/" ++ name
      let tmpRecPath := pathJoinS recPath name
      match fn curPath { name := name, size := node.nodeSize, isDir := node.isDirB } with
      | .error e => (zw, .error e)
      | .ok _ =>
        if node.isDirB then
          match packFile srcPath tmpRecPath zw
              { name := name, size := node.nodeSize, isDir := true } fs with
          | (zw1, .error e) => (zw1, .error e)
          | (zw1, .ok _) =>
            match go curPath tmpRecPath zw1 with
            | (zw2, .error e) => (zw2, .error e)
            | (zw2, .ok _) => packChildren go srcPath recPath fs fn rest zw2
        else
          match packFile curPath tmpRecPath zw
              { name := name, size := node.nodeSize, isDir := false } fs with
          | (zw1, .error e) => (zw1, .error e)
          | (zw1, .ok _) => packChildren go srcPath recPath fs fn rest zw1

/-- Embedding of packDir (write.go:168).  The unbounded Go recursion over
subdirectories is modelled with a fuel bound; every caller passes one more
than the number of filesystem entries, which exceeds any directory depth, so
the outOfFuel branch is a model artifact that the embedded entry points never
reach. -/
def packDir (fuel : Nat) (srcPath recPath : String) (zw : List ZEntry) (fs : FS)
    (fn : Visitor) : List ZEntry × Except Err Unit :=
  match fuel with
  | 0 => (zw, .error .outOfFuel)
  | fuel' + 1 =>
    match fs.lookup (splitPath srcPath) with
    | some .dir =>
      packChildren (fun c r zw1 => packDir fuel' c r zw1 fs fn) srcPath recPath fs fn
        (fs.readdir (splitPath srcPath)) zw
    | some (.file _) => (zw, .error .enotdir)
    | none => (zw, .error .enoent)

/-- Embedding of packToWriter (write.go:238): stat the source once, then pack
a single file at the root, or the directory tree with or without the base
name as a wrapping root member. -/
def packToWriter (srcPath : String) (fn : Visitor) (includeDir : Bool) (fs : FS) :
    List ZEntry × Except Err Unit :=
  match fs.lookup (splitPath srcPath) with
  | none => ([], .error .enoent)
  | some node =>
    let basePath := pathBaseS srcPath
    let fuel := fs.entries.length + 1
    if node.isDirB then
      if includeDir then
        match packFile srcPath basePath []
            { name := basePath, size := node.nodeSize, isDir := true } fs with
        | (zw, .error e) => (zw, .error e)
        | (zw, .ok _) => packDir fuel srcPath basePath zw fs fn
      else packDir fuel srcPath "" [] fs fn
    else
      packFile srcPath basePath []
        { name := basePath, size := node.nodeSize, isDir := false } fs

/-- Embedding of packTo (write.go:267): create the destination file, then
pack into it; the bytes the codec wrote (possibly partial on error) land in
the destination as encoded archive data. -/
def packTo (srcPath destPath : String) (fn : Visitor) (includeDir : Bool) (fs : FS) :
    FS × Except Err Unit :=
  match osCreate fs (splitPath destPath) with
  | (fs1, .error e) => (fs1, .error e)
  | (fs1, .ok _) =>
    let r := packToWriter srcPath fn includeDir fs1
    (fs1.setNode (splitPath destPath)
      (.file (.zipData (r.1.map (fun m => (m.name, m.declSize, m.body))))), r.2)

/-- Embedding of PackToFunc (write.go:293) with its variadic includeDir. -/
def PackToFunc (srcPath destPath : String) (fn : Visitor) (includeDir : List Bool)
    (fs : FS) : FS × Except Err Unit :=
  packTo srcPath destPath fn (match includeDir with | b :: _ => b | [] => false) fs

/-- Embedding of PackTo (write.go:304). -/
def PackTo (srcPath destPath : String) (includeDir : List Bool) (fs : FS) :
    FS × Except Err Unit :=
  PackToFunc srcPath destPath defaultPackFunc includeDir fs

/-- Modelled from the spec: ZipArchive.Open as Flush's final step invokes it
(the method is declared outside src/zip/write.go).  Per the spec, reopening
the just-packed backing file repopulates the Session from the archive's
directory of entries, so subsequent in-process reads reflect the freshly
packed bytes, and clears the dirty flag. -/
def ZipArchive.Open (z : ZipArchive) (name : String) (fs : FS) :
    ZipArchive × Except Err Unit :=
  match fs.lookup (splitPath name) with
  | some (.file (.zipData ms)) =>
    let members := ms.map (fun m => ZEntry.mk m.1 m.2.1 m.2.2)
    ({ z with FileName := name, ReadCloser := some members, isHasChanged := false,
              files := members.map (fun m => { name := m.name, absPath := "" }) }, .ok ())
  | some _ => (z, .error .einval)
  | none => (z, .error .enoent)

/-- Embedding of ZipArchive.Flush (write.go:136).  The deferred
os.RemoveAll(tmpPath) is mirrored by removing the scratch tree on every exit
path past the guard. -/
def ZipArchive.Flush (z : ZipArchive) (fs : FS) : FS × Except Err Unit × ZipArchive :=
  if !z.isHasChanged || (z.ReadCloser.isNone && !z.isHasWriter) then
    (fs, .ok (), z)
  else
    let tmpStr := tmpPathOf z.FileName
    let tmp := splitPath tmpStr
    let fs0 := fs.removeAll tmp
    let r := flushLoop z tmpStr z.files fs0
    let z1 := { z with files := r.1 }
    match r.2.2 with
    | .error e => ((r.2.1).removeAll tmp, .error e, z1)
    | .ok _ =>
      if z.isHasWriter then
        let w := packToWriter tmpStr defaultPackFunc true r.2.1
        ((r.2.1).removeAll tmp, w.2, { z1 with writerOut := z1.writerOut ++ w.1 })
      else
        match packTo tmpStr z.FileName defaultPackFunc false r.2.1 with
        | (fs2, .error e) => (fs2.removeAll tmp, .error e, z1)
        | (fs2, .ok _) =>
          let o := z1.Open z.FileName fs2
          (fs2.removeAll tmp, o.2, o.1)


/-! ## General lemmas about the filesystem model -/

theorem FS.lookup_removeAll_of_pref {p q : List String} (fs : FS)
    (h : compsPref p q = true) : (fs.removeAll p).lookup q = none := by
  unfold FS.removeAll FS.lookup
  have hfind : List.find? (fun e => e.1 == q)
      (List.filter (fun e => !compsPref p e.1) fs.entries) = none := by
    rw [List.find?_eq_none]
    intro x hx
    have hxq := (List.mem_filter.1 hx).2
    intro hbeq
    have hx1 : x.1 = q := by simpa using hbeq
    rw [hx1, h] at hxq
    simp at hxq
  simp [hfind]

/-! ## Claim C2 -/

/-- Concrete Session for the C2 scenario: pending changes, no opened archive,
no writer, backing path absent from the (empty) filesystem. -/
def z2 : ZipArchive := ⟨"gone.zip", 0, false, true, none, [⟨"a", "p"⟩], []⟩

/-- Claim C2, counterexample: with pending changes, no opened archive and no
writer bound, and the backing archive path missing from the filesystem, Flush
returns nil as a pure no-op instead of failing with an I/O error, refuting
both the claimed iff (changes are pending yet Flush no-ops) and the claimed
failure scenario. -/
theorem c2_flush_missing_archive_noop :
    z2.Flush ⟨[]⟩ = (⟨[]⟩, .ok (), z2) ∧ z2.isHasChanged = true ∧
      z2.ReadCloser = none ∧ z2.isHasWriter = false ∧ (FS.mk []).lookup (splitPath z2.FileName) = none :=
  ⟨rfl, rfl, rfl, rfl, rfl⟩

/-- Claim C2 (amended): Flush is a pure no-op — returning nil with the
filesystem and the Session untouched — whenever there are no pending changes
OR the Session has no live source (no opened archive and no writer); in
particular, with no live source it returns nil even when the backing archive
path does not exist, rather than failing with an I/O error. -/
theorem c2_flush_noop_guard (z : ZipArchive) (fs : FS)
    (h : (!z.isHasChanged || (z.ReadCloser.isNone && !z.isHasWriter)) = true) :
    z.Flush fs = (fs, .ok (), z) := by
  unfold ZipArchive.Flush
  rw [if_pos h]

/-- Witness for c2_flush_noop_guard at the concrete C2 Session. -/
theorem c2_flush_noop_guard_witness : z2.Flush ⟨[]⟩ = (⟨[]⟩, .ok (), z2) :=
  c2_flush_noop_guard z2 ⟨[]⟩ (by decide)

/-! ## Claim C4 -/

/-- Every exit path of Flush past the no-op guard ends in the deferred
removal of the scratch tree. -/
theorem flush_past_guard_fs (z : ZipArchive) (fs : FS)
    (h : (!z.isHasChanged || (z.ReadCloser.isNone && !z.isHasWriter)) = false) :
    ∃ fs1 : FS, (z.Flush fs).1 = fs1.removeAll (splitPath (tmpPathOf z.FileName)) := by
  unfold ZipArchive.Flush
  rw [if_neg (by simp [h])]
  dsimp only []
  rcases h1 : flushLoop z (tmpPathOf z.FileName) z.files
      (fs.removeAll (splitPath (tmpPathOf z.FileName))) with ⟨fl, fs1, r⟩
  dsimp only
  rcases r with e | u
  · exact ⟨fs1, rfl⟩
  · rcases hw : z.isHasWriter with _ | _
    · rcases hp : packTo (tmpPathOf z.FileName) z.FileName defaultPackFunc false fs1
          with ⟨fs2, r2⟩
      rcases r2 with e2 | u2
      · exact ⟨fs2, rfl⟩
      · exact ⟨fs2, rfl⟩
    · exact ⟨fs1, rfl⟩

/-- Claim C4: every run of Flush that passes the no-op guard removes the
scratch directory on every exit path, success or failure — after Flush
returns, no node remains at or below the scratch path derived from the
archive's base name. -/
theorem c4_flush_removes_scratch (z : ZipArchive) (fs : FS)
    (h : (!z.isHasChanged || (z.ReadCloser.isNone && !z.isHasWriter)) = false)
    (q : List String) (hq : compsPref (splitPath (tmpPathOf z.FileName)) q = true) :
    ((z.Flush fs).1).lookup q = none := by
  obtain ⟨fs1, hfs⟩ := flush_past_guard_fs z fs h
  rw [hfs]
  exact FS.lookup_removeAll_of_pref _ hq

/-- Concrete writer-backed Session and filesystem exercising the full Flush
materialize-and-pack path. -/
def fsA : FS := ⟨[(["src","a"], .file (.bytes "hi"))]⟩

/-- Writer-backed dirty Session bound to the fsA source file. -/
def zA : ZipArchive := ⟨"x.zip", 0, true, true, none, [⟨"a", "src/a"⟩], []⟩

/-- Witness for c4_flush_removes_scratch at a concrete dirty writer-backed
Session. -/
theorem c4_flush_removes_scratch_witness :
    ((zA.Flush fsA).1).lookup ["tmp", "cae", "x.zip"] = none :=
  c4_flush_removes_scratch zA fsA (by decide) ["tmp", "cae", "x.zip"] (by decide)

/-! ## Claim C5 -/

/-- Filesystem in which the destination of the extracted file already exists
as a directory, making os.Create fail. -/
def fs5 : FS := ⟨[(["d"], .dir), (["d","a"], .dir)]⟩

/-- Claim C5, divergence witness: extracting the file entry a into
destination d, where d/a exists as a directory, makes os.Create fail with
EISDIR (second conjunct evaluates the create step alone); the source discards
that error into the blank identifier, so extractFile instead returns the
os.ErrInvalid of the copy through the nil handle — the create error is never
propagated, contradicting the claim and the evident intent of the dead
err-check after the create (write.go:39-42). -/
theorem c5_extractFile_swallows_create_error :
    extractFile ⟨"a", 1, .bytes "x"⟩ "d" fs5 = (fs5, .error .einval) ∧
      osCreate ((mkdirAll fs5 ["d"]).1) ["d", "a"] = (fs5, .error .eisdir) :=
  ⟨rfl, rfl⟩

/-! ## Claim C8 -/

/-- Equation lemma: packFile on a directory stat emits the trailing-slash
zero-size member and copies nothing. -/
theorem packFile_dir_eq (srcFile recPath : String) (zw : List ZEntry) (fi : FInfo)
    (fs : FS) (hdir : fi.isDir = true) :
    packFile srcFile recPath zw fi fs
      = (zw ++ [⟨recPath ++ "/", 0, .bytes ""⟩], .ok ()) := by
  simp [packFile, hdir]

/-- Equation lemma: packFile on a file stat whose source path holds data d
emits a member carrying exactly d with the declared size truncated to 32
bits. -/
theorem packFile_file_eq (srcFile recPath : String) (zw : List ZEntry) (fi : FInfo)
    (fs : FS) (d : FileData) (hdir : fi.isDir = false)
    (hl : fs.lookup (splitPath srcFile) = some (.file d)) :
    packFile srcFile recPath zw fi fs
      = (zw ++ [⟨recPath, fi.size % 2 ^ 32, d⟩], .ok ()) := by
  simp [packFile, hdir, hl]

/-- Claim C8 (amended): a directory member is emitted with a trailing-slash
name, declared size zero and no content; a file member whose source holds
data d is emitted with exactly d as its streamed body and a declared
uncompressed size equal to the stat size truncated to 32 bits (uint32 of the
int64 size, write.go:221) — equal to the byte size only below 2 to the 32. -/
theorem c8_packFile_member_shape (srcFile recPath : String) (zw : List ZEntry)
    (fi : FInfo) (fs : FS) (d : FileData) :
    (fi.isDir = true →
      packFile srcFile recPath zw fi fs
        = (zw ++ [⟨recPath ++ "/", 0, .bytes ""⟩], .ok ())) ∧
    (fi.isDir = false → fs.lookup (splitPath srcFile) = some (.file d) →
      packFile srcFile recPath zw fi fs
        = (zw ++ [⟨recPath, fi.size % 2 ^ 32, d⟩], .ok ())) :=
  ⟨fun h => packFile_dir_eq srcFile recPath zw fi fs h,
   fun h hl => packFile_file_eq srcFile recPath zw fi fs d h hl⟩

/-- Small filesystem with one three-byte file. -/
def fs8 : FS := ⟨[(["f"], .file (.bytes "abc"))]⟩

/-- Witness for c8_packFile_member_shape: both branches at concrete inputs. -/
theorem c8_packFile_member_shape_witness :
    packFile "q" "d" [] ⟨"d", 0, true⟩ fs8 = ([⟨"d/", 0, .bytes ""⟩], .ok ()) ∧
      packFile "f" "r/f" [] ⟨"f", 3, false⟩ fs8 = ([⟨"r/f", 3 % 2 ^ 32, .bytes "abc"⟩], .ok ()) :=
  ⟨(c8_packFile_member_shape "q" "d" [] ⟨"d", 0, true⟩ fs8 (.bytes "")).1 rfl,
   (c8_packFile_member_shape "f" "r/f" [] ⟨"f", 3, false⟩ fs8 (.bytes "abc")).2 rfl rfl⟩

/-- Character list of length 2 to the 32. -/
def bigChars : List Char := List.replicate (2 ^ 32) 'a'

/-- A file exactly 2 to the 32 bytes long. -/
def bigData : FileData := .bytes (String.mk bigChars)

/-- Filesystem holding the 4 GiB file. -/
def fsBig : FS := ⟨[(["f"], .file bigData)]⟩

/-- Stat result for the 4 GiB file. -/
def bigFi : FInfo := ⟨"f", bigData.size, false⟩

/-- Projection equation for members, stated at variables so concrete 4 GiB
instances never force kernel evaluation. -/
theorem declSize_mk (n : String) (s : Nat) (b : FileData) :
    ZEntry.declSize ⟨n, s, b⟩ = s := rfl

/-- Claim C8, counterexample: packing a file whose size is exactly 2 to the
32 emits a header whose declared uncompressed size is 0 (the uint32
truncation at write.go:221), not the file's size, refuting exact equality
for every reportable size. -/
theorem c8_uint32_truncation_counterexample :
    (packFile "f" "f" [] bigFi fsBig).1.map ZEntry.declSize = [0] ∧
      bigFi.size = 2 ^ 32 := by
  have hlen : bigFi.size = 2 ^ 32 := by
    rw [show bigFi.size = bigChars.length from rfl, bigChars, List.length_replicate]
  have hlook : fsBig.lookup (splitPath "f") = some (.file bigData) := by
    rw [show splitPath "f" = ["f"] from by decide]
    exact rfl
  have hmem := packFile_file_eq "f" "f" [] bigFi fsBig bigData rfl hlook
  refine ⟨?_, hlen⟩
  rw [congrArg Prod.fst hmem, List.nil_append, List.map_cons, List.map_nil,
    declSize_mk, hlen]
  norm_num

/-! ## Shapes of Flush past the guard -/

/-- Characterization of Flush when the materialization loop fails. -/
theorem flush_loop_error_eq (z : ZipArchive) (fs : FS)
    (hguard : (!z.isHasChanged || (z.ReadCloser.isNone && !z.isHasWriter)) = false)
    (fl : List FileEnt) (fs1 : FS) (e : Err)
    (h1 : flushLoop z (tmpPathOf z.FileName) z.files
        (fs.removeAll (splitPath (tmpPathOf z.FileName))) = (fl, fs1, .error e)) :
    z.Flush fs = (fs1.removeAll (splitPath (tmpPathOf z.FileName)), .error e,
      { z with files := fl }) := by
  unfold ZipArchive.Flush
  rw [if_neg (by simp [hguard])]
  dsimp only
  rw [h1]

/-- Characterization of Flush on a writer-backed Session when the
materialization loop succeeds: the scratch tree is packed to the writer with
includeDir set to true. -/
theorem flush_writer_ok_eq (z : ZipArchive) (fs : FS)
    (hguard : (!z.isHasChanged || (z.ReadCloser.isNone && !z.isHasWriter)) = false)
    (hw : z.isHasWriter = true) (fl : List FileEnt) (fs1 : FS)
    (h1 : flushLoop z (tmpPathOf z.FileName) z.files
        (fs.removeAll (splitPath (tmpPathOf z.FileName))) = (fl, fs1, .ok ())) :
    z.Flush fs = (fs1.removeAll (splitPath (tmpPathOf z.FileName)),
      (packToWriter (tmpPathOf z.FileName) defaultPackFunc true fs1).2,
      { z with
        files := fl
        writerOut := z.writerOut ++ (packToWriter (tmpPathOf z.FileName) defaultPackFunc true fs1).1 }) := by
  unfold ZipArchive.Flush
  rw [if_neg (by simp [hguard])]
  dsimp only
  rw [h1, hw]
  rfl

/-- The entry list flushLoop returns on success: every non-directory entry
has its Name overwritten with the scratch-joined path, in place. -/
theorem flushLoop_files_ok (z : ZipArchive) (tmpStr : String) (l : List FileEnt)
    (fs : FS) (hok : (flushLoop z tmpStr l fs).2.2 = .ok ()) :
    (flushLoop z tmpStr l fs).1
      = l.map (fun f => if endsSlash f.name then f
          else { f with name := pathJoinS tmpStr f.name }) := by
  induction l generalizing fs with
  | nil => simp [flushLoop]
  | cons f rest ih =>
    by_cases hd : endsSlash f.name = true
    · rw [flushLoop, if_pos hd] at hok ⊢
      rw [List.map_cons, if_pos hd]
      dsimp only at hok ⊢
      rw [ih _ hok]
    · rw [flushLoop, if_neg hd] at hok ⊢
      rw [List.map_cons, if_neg hd]
      dsimp only at hok ⊢
      rcases he : z.extractFile { f with name := pathJoinS tmpStr f.name } fs
          with ⟨fs1, rr⟩
      rw [he] at hok
      rcases rr with e | u
      · simp at hok
      · dsimp only at hok ⊢
        rw [ih _ hok]

/-! ## Claim C10 -/

/-- Claim C10 (amended): Flush rewrites each non-directory entry's stored
Name to the scratch path joined with the old name; on a writer-backed Session
a successful Flush returns with exactly these scratch filesystem paths stored
in the entry list.  (On a successful path-backed Flush the final reopen
repopulates the list with fresh archive-relative names instead, see the
counterexample.) -/
theorem c10_flush_rewrites_names (z : ZipArchive) (fs : FS)
    (hw : z.isHasWriter = true) (hc : z.isHasChanged = true)
    (hok : (z.Flush fs).2.1 = .ok ()) :
    (z.Flush fs).2.2.files
      = z.files.map (fun f => if endsSlash f.name then f
          else { f with name := pathJoinS (tmpPathOf z.FileName) f.name }) := by
  have hguard : (!z.isHasChanged || (z.ReadCloser.isNone && !z.isHasWriter)) = false := by
    simp [hw, hc]
  rcases h1 : flushLoop z (tmpPathOf z.FileName) z.files
      (fs.removeAll (splitPath (tmpPathOf z.FileName))) with ⟨fl, fs1, r⟩
  rcases r with e | u
  · rw [flush_loop_error_eq z fs hguard fl fs1 e h1] at hok
    simp at hok
  · cases u
    have hmap := flushLoop_files_ok z (tmpPathOf z.FileName) z.files
      (fs.removeAll (splitPath (tmpPathOf z.FileName))) (by rw [h1])
    rw [h1] at hmap
    rw [flush_writer_ok_eq z fs hguard hw fl fs1 h1]
    exact hmap

/-- Witness for c10_flush_rewrites_names at the concrete writer-backed
Session zA. -/
theorem c10_flush_rewrites_names_witness :
    (zA.Flush fsA).2.2.files
      = zA.files.map (fun f => if endsSlash f.name then f
          else { f with name := pathJoinS (tmpPathOf zA.FileName) f.name }) :=
  c10_flush_rewrites_names zA fsA rfl rfl rfl

/-- Filesystem for the path-backed counterexample: the bound source file and
an existing backing archive. -/
def fsB : FS := ⟨[(["s"], .file (.bytes "v")), (["x.zip"], .file (.bytes "old"))]⟩

/-- Path-backed dirty Session whose single entry is bound to the source file
s. -/
def zB : ZipArchive := ⟨"x.zip", 0, false, true, some [⟨"m", 1, .bytes "q"⟩], [⟨"a", "s"⟩], []⟩

/-- Claim C10, counterexample: a successful path-backed Flush ends by
reopening the backing archive, which repopulates the entry list with fresh
archive-relative names — afterwards the stored name is a, not the scratch
path tmp/cae/x.zip/a the claim asserts. -/
theorem c10_path_backed_repopulates_counterexample :
    (zB.Flush fsB).2.1 = .ok () ∧
      (zB.Flush fsB).2.2.files = [⟨"a", ""⟩] ∧
      zB.files = [⟨"a", "s"⟩] ∧
      pathJoinS (tmpPathOf zB.FileName) "a" = "tmp/cae/x.zip/a" :=
  ⟨rfl, rfl, rfl, rfl⟩


/-! ## Frame lemmas for the filesystem operations -/

theorem compsPref_iff {p q : List String} : compsPref p q = true ↔ p <+: q := by
  induction p generalizing q with
  | nil => simp [compsPref]
  | cons a as_ ih =>
    cases q with
    | nil => simp [compsPref]
    | cons b bs =>
      rw [compsPref]
      constructor
      · intro h
        obtain ⟨h1, h2⟩ := (Bool.and_eq_true _ _).mp h
        have hab : a = b := by simpa using h1
        subst hab
        obtain ⟨t, ht⟩ := ih.1 h2
        exact ⟨t, by simp [ht]⟩
      · intro h
        obtain ⟨t, ht⟩ := h
        simp only [List.cons_append] at ht
        obtain ⟨hab, hrest⟩ := List.cons.inj ht
        subst hab
        apply (Bool.and_eq_true _ _).mpr
        exact ⟨by simp, ih.2 ⟨t, hrest⟩⟩

/-- Association-list view of FS.lookup. -/
def lookupL (l : List (List String × FsNode)) (q : List String) : Option FsNode :=
  (l.find? (fun e => e.1 == q)).map (fun e => e.2)

theorem FS.lookup_eq_lookupL (fs : FS) (q : List String) :
    fs.lookup q = lookupL fs.entries q := rfl

theorem lookupL_cons (e : List String × FsNode) (rest : List (List String × FsNode))
    (q : List String) :
    lookupL (e :: rest) q = if e.1 = q then some e.2 else lookupL rest q := by
  unfold lookupL
  rw [List.find?_cons]
  by_cases h : e.1 = q
  · simp [h]
  · have hb : (e.1 == q) = false := by
      simp only [beq_eq_false_iff_ne, ne_eq]
      exact h
    rw [hb, if_neg h]

theorem lookupL_map_set (l : List (List String × FsNode)) (p : List String) (n : FsNode)
    (q : List String) (hne : q ≠ p) :
    lookupL (l.map (fun e => if e.1 == p then (p, n) else e)) q = lookupL l q := by
  induction l with
  | nil => rfl
  | cons e rest ih =>
    rw [List.map_cons]
    by_cases hep : e.1 = p
    · rw [if_pos (by simpa using hep), lookupL_cons, lookupL_cons]
      rw [if_neg (fun hc => hne hc.symm), if_neg (by rw [hep]; exact fun hc => hne hc.symm)]
      exact ih
    · rw [if_neg (by simpa using hep), lookupL_cons, lookupL_cons]
      by_cases heq : e.1 = q
      · rw [if_pos heq, if_pos heq]
      · rw [if_neg heq, if_neg heq]
        exact ih

theorem lookupL_map_set_self (l : List (List String × FsNode)) (p : List String) (n : FsNode)
    (hs : (lookupL l p).isSome = true) :
    lookupL (l.map (fun e => if e.1 == p then (p, n) else e)) p = some n := by
  induction l with
  | nil => simp [lookupL] at hs
  | cons e rest ih =>
    rw [List.map_cons]
    by_cases hep : e.1 = p
    · rw [if_pos (by simpa using hep), lookupL_cons, if_pos rfl]
    · rw [if_neg (by simpa using hep), lookupL_cons, if_neg hep]
      rw [lookupL_cons, if_neg hep] at hs
      exact ih hs

theorem lookupL_append_single (l : List (List String × FsNode)) (p : List String)
    (n : FsNode) (q : List String) :
    lookupL (l ++ [(p, n)]) q
      = match lookupL l q with
        | some v => some v
        | none => if p = q then some n else none := by
  induction l with
  | nil =>
    simp only [List.nil_append]
    rw [lookupL_cons]
    have hnil : lookupL ([] : List (List String × FsNode)) q = none := rfl
    rw [hnil]
  | cons e rest ih =>
    rw [List.cons_append, lookupL_cons, lookupL_cons]
    by_cases h : e.1 = q
    · rw [if_pos h, if_pos h]
    · rw [if_neg h, if_neg h]
      exact ih

theorem FS.lookup_setNode_other {p q : List String} (fs : FS) (n : FsNode)
    (hne : q ≠ p) : (fs.setNode p n).lookup q = fs.lookup q := by
  unfold FS.setNode
  by_cases hs : (fs.lookup p).isSome
  · rw [if_pos hs]
    rw [FS.lookup_eq_lookupL, FS.lookup_eq_lookupL]
    exact lookupL_map_set fs.entries p n q hne
  · rw [if_neg hs]
    rw [FS.lookup_eq_lookupL, FS.lookup_eq_lookupL]
    rw [lookupL_append_single]
    cases h : lookupL fs.entries q with
    | some v => rfl
    | none =>
      simp only []
      rw [if_neg (fun hc => hne hc.symm)]

theorem FS.lookup_setNode_self {p : List String} (fs : FS) (n : FsNode) :
    (fs.setNode p n).lookup p = some n := by
  unfold FS.setNode
  by_cases hs : (fs.lookup p).isSome
  · rw [if_pos hs]
    rw [FS.lookup_eq_lookupL]
    exact lookupL_map_set_self fs.entries p n (by rwa [FS.lookup_eq_lookupL] at hs)
  · rw [if_neg hs]
    rw [FS.lookup_eq_lookupL, lookupL_append_single]
    have h : lookupL fs.entries p = none := by
      rw [FS.lookup_eq_lookupL] at hs
      exact Option.not_isSome_iff_eq_none.1 (by simpa using hs)
    rw [h]
    simp


theorem FS.lookup_removeAll_of_not_pref {p q : List String} (fs : FS)
    (h : compsPref p q = false) : (fs.removeAll p).lookup q = fs.lookup q := by
  rw [FS.lookup_eq_lookupL, FS.lookup_eq_lookupL]
  show lookupL (fs.entries.filter (fun e => !compsPref p e.1)) q = lookupL fs.entries q
  induction fs.entries with
  | nil => rfl
  | cons e rest ih =>
    rw [List.filter_cons]
    by_cases hp : compsPref p e.1 = true
    · have hne : ¬(e.1 = q) := by
        intro hc
        rw [hc, h] at hp
        exact Bool.false_ne_true hp
      rw [if_neg (by simp [hp]), lookupL_cons, if_neg hne]
      exact ih
    · rw [if_pos (by simp [Bool.not_eq_true] at hp ⊢; exact hp), lookupL_cons, lookupL_cons]
      by_cases he : e.1 = q
      · rw [if_pos he, if_pos he]
      · rw [if_neg he, if_neg he]
        exact ih

theorem mkdirWalk_lookup_other (fs : FS) (done p q : List String)
    (hq : ¬ q <+: done ++ p) : ((mkdirWalk fs done p).1).lookup q = fs.lookup q := by
  induction p generalizing fs done with
  | nil => rfl
  | cons c rest ih =>
    have hcur : (done ++ [c]) ++ rest = done ++ c :: rest := by simp
    have hqcur : q ≠ done ++ [c] := by
      intro hc
      exact hq (by rw [hc]; exact ⟨rest, hcur⟩)
    have hq' : ¬ q <+: (done ++ [c]) ++ rest := by rwa [hcur]
    simp only [mkdirWalk]
    cases hl : fs.lookup (done ++ [c]) with
    | none =>
      dsimp only
      rw [ih (fs.setNode (done ++ [c]) .dir) (done ++ [c]) hq']
      exact FS.lookup_setNode_other fs .dir hqcur
    | some n =>
      cases n with
      | dir => exact ih fs (done ++ [c]) hq'
      | file d => rfl

theorem mkdirWalk_keeps_file (fs : FS) (done p q : List String) (d : FileData)
    (h : fs.lookup q = some (.file d)) :
    ((mkdirWalk fs done p).1).lookup q = some (.file d) := by
  induction p generalizing fs done with
  | nil => exact h
  | cons c rest ih =>
    simp only [mkdirWalk]
    cases hl : fs.lookup (done ++ [c]) with
    | none =>
      dsimp only
      have hqcur : q ≠ done ++ [c] := by
        intro hc
        rw [hc, hl] at h
        exact Option.noConfusion h
      exact ih (fs.setNode (done ++ [c]) .dir) (done ++ [c])
        (by rw [FS.lookup_setNode_other fs .dir hqcur]; exact h)
    | some n =>
      cases n with
      | dir => exact ih fs (done ++ [c]) h
      | file d2 => exact h

theorem mkdirWalk_no_new_file (fs : FS) (done p q : List String) (d : FileData)
    (h : ((mkdirWalk fs done p).1).lookup q = some (.file d)) :
    fs.lookup q = some (.file d) := by
  induction p generalizing fs done with
  | nil => exact h
  | cons c rest ih =>
    simp only [mkdirWalk] at h
    cases hl : fs.lookup (done ++ [c]) with
    | none =>
      rw [hl] at h
      dsimp only at h
      have h2 := ih (fs.setNode (done ++ [c]) .dir) (done ++ [c]) h
      by_cases hqcur : q = done ++ [c]
      · rw [hqcur, FS.lookup_setNode_self] at h2
        simp at h2
      · rwa [FS.lookup_setNode_other fs .dir hqcur] at h2
    | some n =>
      cases n with
      | dir =>
        rw [hl] at h
        exact ih fs (done ++ [c]) h
      | file d2 =>
        rw [hl] at h
        exact h

theorem osCreate_lookup_other {p q : List String} (fs : FS) (hne : q ≠ p) :
    ((osCreate fs p).1).lookup q = fs.lookup q := by
  unfold osCreate
  cases p with
  | nil => rfl
  | cons c cs =>
    cases hl : fs.lookup (c :: cs) with
    | some n =>
      cases n with
      | dir => rfl
      | file d => exact FS.lookup_setNode_other fs _ hne
    | none =>
      dsimp only
      by_cases hpar : (c :: cs).dropLast.isEmpty
      · rw [if_pos hpar]
        exact FS.lookup_setNode_other fs _ hne
      · rw [if_neg hpar]
        cases hp : fs.lookup (c :: cs).dropLast with
        | some n =>
          cases n with
          | dir => exact FS.lookup_setNode_other fs _ hne
          | file d => rfl
        | none => rfl


/-! ## Wellformedness of filesystems and derived frame lemmas -/

/-- Every key in the filesystem consists of clean components (as every key
the embedded operations insert does). -/
def FS.WF (fs : FS) : Bool := fs.entries.all (fun e => cleanComps e.1)

/-- Dot-dot-free component lists; the path model does not resolve dot-dot
components, so theorems about Go behavior carry this fidelity hypothesis. -/
def noDotDot (l : List String) : Bool := l.all (fun c => c ≠ "..")

theorem dropLast_pref {α : Type} (l : List α) : l.dropLast <+: l := by
  induction l with
  | nil => exact List.prefix_refl _
  | cons a t ih =>
    cases t with
    | nil => simp
    | cons b t2 =>
      rw [List.dropLast_cons₂]
      exact (List.prefix_cons_inj a).2 ih

theorem pref_append_left {a b c : List String} (h : a <+: b) : c ++ a <+: c ++ b := by
  obtain ⟨t, ht⟩ := h
  exact ⟨t, by rw [List.append_assoc, ht]⟩

theorem pref_comparable {a b c : List String} (h1 : a <+: c) (h2 : b <+: c) :
    a <+: b ∨ b <+: a :=
  List.prefix_or_prefix_of_prefix h1 h2

theorem not_pref_of_incomparable {q tmp sfx : List String}
    (hq1 : ¬ q <+: tmp) (hq2 : ¬ tmp <+: q) : ¬ q <+: tmp ++ sfx := by
  intro hc
  rcases pref_comparable hc (⟨sfx, rfl⟩ : tmp <+: tmp ++ sfx) with h | h
  · exact hq1 h
  · exact hq2 h

theorem FS.WF_setNode (fs : FS) (p : List String) (n : FsNode)
    (hp : cleanComps p = true) (h : FS.WF fs = true) : FS.WF (fs.setNode p n) = true := by
  unfold FS.setNode
  by_cases hs : (fs.lookup p).isSome
  · rw [if_pos hs]
    apply List.all_eq_true.2
    intro x hx
    obtain ⟨e, he, hxe⟩ := List.mem_map.1 hx
    by_cases hep : e.1 == p
    · rw [if_pos hep] at hxe
      subst hxe
      exact hp
    · rw [if_neg hep] at hxe
      subst hxe
      exact List.all_eq_true.1 h e he
  · rw [if_neg hs]
    apply List.all_eq_true.2
    intro x hx
    rcases List.mem_append.1 hx with h1 | h1
    · exact List.all_eq_true.1 h x h1
    · have : x = (p, n) := by simpa using h1
      subst this
      exact hp

theorem FS.WF_removeAll (fs : FS) (p : List String) (h : FS.WF fs = true) :
    FS.WF (fs.removeAll p) = true := by
  apply List.all_eq_true.2
  intro x hx
  exact List.all_eq_true.1 h x (List.mem_filter.1 hx).1

theorem cleanComps_of_pref {a b : List String} (h : a <+: b)
    (hb : cleanComps b = true) : cleanComps a = true := by
  apply List.all_eq_true.2
  intro x hx
  exact List.all_eq_true.1 hb x (h.subset hx)

theorem FS.WF_mkdirWalk (fs : FS) (done p : List String)
    (hp : cleanComps (done ++ p) = true) (h : FS.WF fs = true) :
    FS.WF (mkdirWalk fs done p).1 = true := by
  induction p generalizing fs done with
  | nil => exact h
  | cons c rest ih =>
    have hassoc : (done ++ [c]) ++ rest = done ++ c :: rest := by simp
    have hp' : cleanComps ((done ++ [c]) ++ rest) = true := by rwa [hassoc]
    simp only [mkdirWalk]
    cases hl : fs.lookup (done ++ [c]) with
    | none =>
      dsimp only
      refine ih (fs.setNode (done ++ [c]) .dir) (done ++ [c]) hp' ?_
      refine FS.WF_setNode fs _ .dir ?_ h
      exact cleanComps_of_pref (by exact ⟨rest, hassoc⟩) hp
    | some n =>
      cases n with
      | dir => exact ih fs (done ++ [c]) hp' h
      | file d => exact h

theorem FS.WF_osCreate (fs : FS) (p : List String)
    (hp : cleanComps p = true) (h : FS.WF fs = true) :
    FS.WF (osCreate fs p).1 = true := by
  unfold osCreate
  cases p with
  | nil => exact h
  | cons c cs =>
    cases hl : fs.lookup (c :: cs) with
    | some n =>
      cases n with
      | dir => exact h
      | file d => exact FS.WF_setNode fs _ _ hp h
    | none =>
      dsimp only
      by_cases hpar : (c :: cs).dropLast.isEmpty
      · rw [if_pos hpar]
        exact FS.WF_setNode fs _ _ hp h
      · rw [if_neg hpar]
        cases hp2 : fs.lookup (c :: cs).dropLast with
        | some n =>
          cases n with
          | dir => exact FS.WF_setNode fs _ _ hp h
          | file d => exact h
        | none => exact h


theorem fsCopy_lookup_other (src dst : String) (fs : FS) (q : List String)
    (hq : ¬ q <+: splitPath dst) :
    ((fsCopy src dst fs).1).lookup q = fs.lookup q := by
  have hq2 : q ≠ splitPath dst := fun hc => hq (hc ▸ List.prefix_refl _)
  have hq1 : ¬ q <+: ((splitPath dst).dropLast) := fun hc => hq (hc.trans (dropLast_pref _))
  unfold fsCopy
  cases hs : fs.lookup (splitPath src) with
  | none => rfl
  | some n =>
    cases n with
    | dir => rfl
    | file d =>
      dsimp only
      have hmk : ((mkdirAll fs (splitPath dst).dropLast).1).lookup q = fs.lookup q := by
        unfold mkdirAll
        exact mkdirWalk_lookup_other fs [] _ q (by simpa using hq1)
      cases hoc : osCreate ((mkdirAll fs (splitPath dst).dropLast).1) (splitPath dst) with
      | mk fs2 r =>
        have hfs2 : fs2 = (osCreate ((mkdirAll fs (splitPath dst).dropLast).1) (splitPath dst)).1 := by
          rw [hoc]
        cases r with
        | ok u =>
          dsimp only
          rw [FS.lookup_setNode_other _ _ hq2, hfs2, osCreate_lookup_other _ hq2, hmk]
        | error e =>
          dsimp only
          rw [hfs2, osCreate_lookup_other _ hq2, hmk]

theorem fsCopy_WF (src dst : String) (fs : FS) (h : FS.WF fs = true) :
    FS.WF ((fsCopy src dst fs).1) = true := by
  unfold fsCopy
  cases hs : fs.lookup (splitPath src) with
  | none => exact h
  | some n =>
    cases n with
    | dir => exact h
    | file d =>
      dsimp only
      have hwmk : FS.WF ((mkdirAll fs (splitPath dst).dropLast).1) = true := by
        unfold mkdirAll
        refine FS.WF_mkdirWalk fs [] _ ?_ h
        simpa using cleanComps_of_pref (dropLast_pref _) (splitPath_clean dst)
      cases hoc : osCreate ((mkdirAll fs (splitPath dst).dropLast).1) (splitPath dst) with
      | mk fs2 r =>
        have hfs2 : fs2 = (osCreate ((mkdirAll fs (splitPath dst).dropLast).1) (splitPath dst)).1 := by
          rw [hoc]
        cases r with
        | ok u =>
          dsimp only
          refine FS.WF_setNode _ _ _ (splitPath_clean dst) ?_
          rw [hfs2]
          exact FS.WF_osCreate _ _ (splitPath_clean dst) hwmk
        | error e =>
          dsimp only
          rw [hfs2]
          exact FS.WF_osCreate _ _ (splitPath_clean dst) hwmk

theorem extractFile_lookup_other (f : ZEntry) (destPath : String) (fs : FS)
    (q : List String)
    (hq : ¬ q <+: (splitPath destPath ++ splitPath f.name)) :
    ((extractFile f destPath fs).1).lookup q = fs.lookup q := by
  have hq2 : q ≠ splitPath destPath ++ splitPath f.name :=
    fun hc => hq (hc ▸ List.prefix_refl _)
  have hq1 : ¬ q <+: (splitPath destPath ++ (splitPath f.name).dropLast) :=
    fun hc => hq (hc.trans (pref_append_left (dropLast_pref _)))
  unfold extractFile
  dsimp only
  have hmk : ((mkdirAll fs (splitPath destPath ++ (splitPath f.name).dropLast)).1).lookup q
      = fs.lookup q := by
    unfold mkdirAll
    exact mkdirWalk_lookup_other fs [] _ q (by simpa using hq1)
  rcases hoc : osCreate ((mkdirAll fs (splitPath destPath ++ (splitPath f.name).dropLast)).1)
      (splitPath destPath ++ splitPath f.name) with ⟨fs2, r⟩
  have hfs2 : fs2 = (osCreate ((mkdirAll fs (splitPath destPath ++ (splitPath f.name).dropLast)).1)
      (splitPath destPath ++ splitPath f.name)).1 := by
    rw [hoc]
  rcases r with e | u
  · dsimp only
    rw [hfs2, osCreate_lookup_other _ hq2, hmk]
  · dsimp only
    rw [FS.lookup_setNode_other _ _ hq2, hfs2, osCreate_lookup_other _ hq2, hmk]

theorem extractFile_WF (f : ZEntry) (destPath : String) (fs : FS)
    (h : FS.WF fs = true) : FS.WF ((extractFile f destPath fs).1) = true := by
  unfold extractFile
  dsimp only
  have hclean : cleanComps (splitPath destPath ++ splitPath f.name) = true :=
    cleanComps_append (splitPath_clean destPath) (splitPath_clean f.name)
  have hcleanmk : cleanComps (splitPath destPath ++ (splitPath f.name).dropLast) = true :=
    cleanComps_append (splitPath_clean destPath)
      (cleanComps_of_pref (dropLast_pref _) (splitPath_clean f.name))
  have hwmk : FS.WF ((mkdirAll fs (splitPath destPath ++ (splitPath f.name).dropLast)).1) = true := by
    unfold mkdirAll
    exact FS.WF_mkdirWalk fs [] _ (by simpa using hcleanmk) h
  rcases hoc : osCreate ((mkdirAll fs (splitPath destPath ++ (splitPath f.name).dropLast)).1)
      (splitPath destPath ++ splitPath f.name) with ⟨fs2, r⟩
  have hfs2 : fs2 = (osCreate ((mkdirAll fs (splitPath destPath ++ (splitPath f.name).dropLast)).1)
      (splitPath destPath ++ splitPath f.name)).1 := by
    rw [hoc]
  rcases r with e | u
  · dsimp only
    rw [hfs2]
    exact FS.WF_osCreate _ _ hclean hwmk
  · dsimp only
    refine FS.WF_setNode _ _ _ hclean ?_
    rw [hfs2]
    exact FS.WF_osCreate _ _ hclean hwmk


/-! ## Claim C3 -/

/-- Materializing one rewritten entry touches no path outside the scratch
tree, provided no member of the opened archive is named by a path under the
scratch root (which would make the name-resolution seam extract to the
entry's own absPath instead). -/
theorem zextractFile_joined_lookup_other (z : ZipArchive) (tmpStr base absPath : String)
    (fs : FS) (q : List String)
    (hq1 : ¬ q <+: splitPath tmpStr) (hq2 : ¬ splitPath tmpStr <+: q)
    (hms : ∀ ms, z.ReadCloser = some ms →
        ∀ zf ∈ ms, ¬ splitPath tmpStr <+: splitPath zf.name) :
    ((z.extractFile ⟨pathJoinS tmpStr base, absPath⟩ fs).1).lookup q = fs.lookup q := by
  have hdst : ¬ q <+: splitPath (pathJoinS tmpStr base) := by
    rw [splitPath_pathJoinS]
    exact not_pref_of_incomparable hq1 hq2
  unfold ZipArchive.extractFile
  cases hwb : z.isHasWriter with
  | true =>
    rw [if_neg (by simp)]
    exact fsCopy_lookup_other absPath (pathJoinS tmpStr base) fs q hdst
  | false =>
    rw [if_pos (by simp)]
    cases hrc : z.ReadCloser with
    | none => rfl
    | some ms =>
      dsimp only
      cases hf : ms.find? (fun zf => (FileEnt.mk (pathJoinS tmpStr base) absPath).name == zf.name) with
      | some zf =>
        exfalso
        have hzf : zf ∈ ms := List.mem_of_find?_eq_some hf
        have hpred := List.find?_some hf
        have heq : pathJoinS tmpStr base = zf.name := by simpa using hpred
        refine hms ms hrc zf hzf ?_
        rw [← heq, splitPath_pathJoinS]
        exact ⟨splitPath base, rfl⟩
      | none =>
        exact fsCopy_lookup_other absPath (pathJoinS tmpStr base) fs q hdst

/-- The whole materialization loop leaves every path that is
prefix-incomparable with the scratch root untouched, regardless of success
or failure. -/
theorem flushLoop_lookup_outside (z : ZipArchive) (tmpStr : String) (l : List FileEnt)
    (fs : FS) (q : List String)
    (hq1 : ¬ q <+: splitPath tmpStr) (hq2 : ¬ splitPath tmpStr <+: q)
    (hms : ∀ ms, z.ReadCloser = some ms →
        ∀ zf ∈ ms, ¬ splitPath tmpStr <+: splitPath zf.name) :
    ((flushLoop z tmpStr l fs).2.1).lookup q = fs.lookup q := by
  induction l generalizing fs with
  | nil => rfl
  | cons f rest ih =>
    rw [flushLoop]
    by_cases hd : endsSlash f.name = true
    · rw [if_pos hd]
      dsimp only
      rw [ih]
      unfold mkdirAll
      refine mkdirWalk_lookup_other fs [] _ q ?_
      simpa using not_pref_of_incomparable hq1 hq2
    · rw [if_neg hd]
      dsimp only
      rcases he : z.extractFile { f with name := pathJoinS tmpStr f.name } fs with ⟨fs1, r⟩
      have hfs1 : fs1.lookup q = fs.lookup q := by
        have h0 := zextractFile_joined_lookup_other z tmpStr f.name f.absPath fs q hq1 hq2 hms
        rw [he] at h0
        exact h0
      rcases r with e | u
      · dsimp only
        exact hfs1
      · dsimp only
        rw [ih fs1]
        exact hfs1

/-- Claim C3 (amended): for a path-backed Session, when Flush fails at an
entry-materialization step, the error is surfaced and the backing archive
path holds exactly the node it held before — provided the backing archive
path and the fixed scratch path /tmp/cae/(base) are prefix-incomparable (the
original claim fails when the archive lives under the scratch location, see
the counterexample) and no member of the opened archive is named by a path
under the scratch root.  The dot-dot hypotheses mark the model's fidelity
boundary: Go's path.Join would resolve dot-dot components that the model
keeps literally. -/
theorem c3_flush_materialize_error_atomic (z : ZipArchive) (fs : FS)
    (hw : z.isHasWriter = false) (hc : z.isHasChanged = true)
    (ms : List ZEntry) (hrc : z.ReadCloser = some ms)
    (harch1 : ¬ splitPath z.FileName <+: splitPath (tmpPathOf z.FileName))
    (harch2 : ¬ splitPath (tmpPathOf z.FileName) <+: splitPath z.FileName)
    (hmem : ∀ zf ∈ ms, ¬ splitPath (tmpPathOf z.FileName) <+: splitPath zf.name)
    (hnd1 : noDotDot (splitPath z.FileName) = true)
    (hnd2 : z.files.all (fun f => noDotDot (splitPath f.name)) = true)
    (fl : List FileEnt) (fs1 : FS) (e : Err)
    (hloop : flushLoop z (tmpPathOf z.FileName) z.files
        (fs.removeAll (splitPath (tmpPathOf z.FileName))) = (fl, fs1, .error e)) :
    (z.Flush fs).2.1 = .error e ∧
      ((z.Flush fs).1).lookup (splitPath z.FileName)
        = fs.lookup (splitPath z.FileName) := by
  have hguard : (!z.isHasChanged || (z.ReadCloser.isNone && !z.isHasWriter)) = false := by
    simp [hc, hrc]
  have hflush := flush_loop_error_eq z fs hguard fl fs1 e hloop
  constructor
  · rw [hflush]
  · rw [hflush]
    dsimp only
    have hnotpref : compsPref (splitPath (tmpPathOf z.FileName)) (splitPath z.FileName) = false := by
      cases hcp : compsPref (splitPath (tmpPathOf z.FileName)) (splitPath z.FileName) with
      | false => rfl
      | true => exact absurd (compsPref_iff.1 hcp) harch2
    rw [FS.lookup_removeAll_of_not_pref _ hnotpref]
    have hms : ∀ ms2, z.ReadCloser = some ms2 →
        ∀ zf ∈ ms2, ¬ splitPath (tmpPathOf z.FileName) <+: splitPath zf.name := by
      intro ms2 h2 zf hzf
      rw [hrc] at h2
      exact hmem zf (by rw [Option.some.inj h2]; exact hzf)
    have hloop2 := flushLoop_lookup_outside z (tmpPathOf z.FileName) z.files
      (fs.removeAll (splitPath (tmpPathOf z.FileName))) (splitPath z.FileName)
      harch1 harch2 hms
    rw [hloop] at hloop2
    dsimp only at hloop2
    rw [hloop2]
    exact FS.lookup_removeAll_of_not_pref _ hnotpref

/-- Filesystem for the C3 witness: just the backing archive file. -/
def fsC3 : FS := ⟨[(["x.zip"], .file (.zipData []))]⟩

/-- Path-backed dirty Session whose single entry is bound to a missing
source path, so materialization fails. -/
def zC3 : ZipArchive := ⟨"x.zip", 0, false, true, some [], [⟨"a", "missing"⟩], []⟩

/-- Witness for c3_flush_materialize_error_atomic at a concrete failing
Session. -/
theorem c3_flush_materialize_error_atomic_witness :
    (zC3.Flush fsC3).2.1 = .error .enoent ∧
      ((zC3.Flush fsC3).1).lookup (splitPath zC3.FileName)
        = fsC3.lookup (splitPath zC3.FileName) :=
  c3_flush_materialize_error_atomic zC3 fsC3 rfl rfl [] rfl
    (by decide) (by decide) (by intro zf hzf; simp at hzf) (by decide) (by decide)
    [⟨"tmp/cae/x.zip/a", "missing"⟩] ⟨[(["x.zip"], .file (.zipData []))]⟩ .enoent rfl

/-- Filesystem for the C3 counterexample: the backing archive lives under
the fixed scratch location /tmp/cae. -/
def fs3 : FS := ⟨[(["tmp"], .dir), (["tmp","cae"], .dir),
  (["tmp","cae","x"], .file (.zipData [("m", 1, .bytes "q")]))]⟩

/-- Path-backed dirty Session whose backing archive path is tmp/cae/x — the
scratch path Flush derives for it is the same path. -/
def z3 : ZipArchive := ⟨"tmp/cae/x", 0, false, true, some [], [⟨"a", "missing"⟩], []⟩

/-- Claim C3, counterexample: the scratch path derived from the archive's
base name collides with the archive itself, so the initial scratch cleanup
deletes the archive; when materialization then fails, Flush surfaces the
error but the backing archive file is gone — not byte-for-byte unmodified. -/
theorem c3_scratch_collision_counterexample :
    (z3.Flush fs3).2.1 = .error .enoent ∧
      fs3.lookup (splitPath z3.FileName)
        = some (.file (.zipData [("m", 1, .bytes "q")])) ∧
      ((z3.Flush fs3).1).lookup (splitPath z3.FileName) = none :=
  ⟨rfl, rfl, rfl⟩


/-! ## Claim C1: member-name prefix machinery -/

theorem str_ext {s t : String} (h : s.data = t.data) : s = t := by
  cases s
  cases t
  exact congrArg String.mk (by simpa using h)

theorem strAppend_assoc (a b c : String) : a ++ b ++ c = a ++ (b ++ c) := by
  apply str_ext
  simp [data_append, List.append_assoc]

theorem strPref_refl (p : String) : strPref p p :=
  ⟨"", by apply str_ext; simp [data_append]⟩

theorem strPref_trans {a b c : String} (h1 : strPref a b) (h2 : strPref b c) :
    strPref a c := by
  obtain ⟨t, rfl⟩ := h1
  obtain ⟨s, rfl⟩ := h2
  exact ⟨t ++ s, strAppend_assoc a t s⟩

theorem strPref_append (a t : String) : strPref a (a ++ t) := ⟨t, rfl⟩

/-- A canonical path string: nonempty and a fixed point of split-then-join. -/
def Canon (rc : String) : Prop := splitPath rc ≠ [] ∧ joinComps (splitPath rc) = rc

theorem joinComps_append_single (l : List String) (c : String) (hl : l ≠ []) :
    joinComps (l ++ [c]) = joinComps l ++ "/" ++ c := by
  induction l with
  | nil => exact absurd rfl hl
  | cons x t ih =>
    cases t with
    | nil => rfl
    | cons y t2 =>
      rw [List.cons_append, joinComps_cons x ((y :: t2) ++ [c]) (by simp),
        joinComps_cons x (y :: t2) (by simp), ih (by simp)]
      apply str_ext
      simp [data_append, List.append_assoc]

theorem pathJoinS_eq_of_canon {rc c : String} (h : Canon rc) (hc : cleanComp c = true) :
    pathJoinS rc c = rc ++ "/" ++ c := by
  unfold pathJoinS
  rw [splitPath_single hc, joinComps_append_single _ _ h.1, h.2]

theorem canon_pathJoinS {rc c : String} (h : Canon rc) (hc : cleanComp c = true) :
    Canon (pathJoinS rc c) := by
  constructor
  · rw [splitPath_pathJoinS, splitPath_single hc]
    simp
  · rw [splitPath_pathJoinS]
    rfl

theorem mem_of_getLastQ {α : Type} {l : List α} {a : α} (h : l.getLast? = some a) :
    a ∈ l := by
  induction l with
  | nil => exact Option.noConfusion h
  | cons x t ih =>
    cases t with
    | nil =>
      have : a = x := by simpa using h.symm
      rw [this]
      exact List.mem_singleton_self x
    | cons y t2 =>
      rw [List.getLast?_cons_cons] at h
      exact List.mem_cons_of_mem x (ih h)

theorem pathBaseS_clean {s : String} (h : splitPath s ≠ []) :
    cleanComp (pathBaseS s) = true := by
  unfold pathBaseS
  cases hg : (splitPath s).getLast? with
  | none => exact absurd (List.getLast?_eq_none_iff.1 hg) h
  | some c =>
    have hmem : c ∈ splitPath s := mem_of_getLastQ hg
    exact List.all_eq_true.1 (splitPath_clean s) c hmem

theorem packFile_names (srcFile recPath : String) (zw : List ZEntry) (fi : FInfo)
    (fs : FS) :
    ∀ m ∈ (packFile srcFile recPath zw fi fs).1,
      m ∈ zw ∨ m.name = recPath ++ "/" ∨ m.name = recPath := by
  intro m hm
  unfold packFile at hm
  by_cases hdir : fi.isDir = true
  · rw [if_pos hdir] at hm
    rcases List.mem_append.1 hm with h | h
    · exact .inl h
    · have hx : m = ⟨recPath ++ "/", 0, .bytes ""⟩ := by simpa using h
      rw [hx]
      exact .inr (.inl rfl)
  · rw [if_neg hdir] at hm
    dsimp only at hm
    cases hl : fs.lookup (splitPath srcFile) with
    | none =>
      rw [hl] at hm
      rcases List.mem_append.1 hm with h | h
      · exact .inl h
      · have hx : m = ⟨recPath, fi.size % 2 ^ 32, .bytes ""⟩ := by simpa using h
        rw [hx]
        exact .inr (.inr rfl)
    | some n =>
      cases n with
      | dir =>
        rw [hl] at hm
        rcases List.mem_append.1 hm with h | h
        · exact .inl h
        · have hx : m = ⟨recPath, fi.size % 2 ^ 32, .bytes ""⟩ := by simpa using h
          rw [hx]
          exact .inr (.inr rfl)
      | file d =>
        rw [hl] at hm
        rcases List.mem_append.1 hm with h | h
        · exact .inl h
        · have hx : m = ⟨recPath, fi.size % 2 ^ 32, d⟩ := by simpa using h
          rw [hx]
          exact .inr (.inr rfl)

theorem readdir_names_clean (fs : FS) (p : List String) (hwf : FS.WF fs = true) :
    ∀ x ∈ fs.readdir p, cleanComp x.1 = true := by
  intro x hx
  unfold FS.readdir at hx
  obtain ⟨e, he, hex⟩ := List.mem_filterMap.1 hx
  obtain ⟨n, hcn, hnx⟩ := Option.map_eq_some'.1 hex
  unfold childName at hcn
  by_cases hdl : e.1.dropLast = p
  · rw [if_pos hdl] at hcn
    have hmem : n ∈ e.1 := mem_of_getLastQ hcn
    have hclean : cleanComps e.1 = true := List.all_eq_true.1 hwf e he
    have := List.all_eq_true.1 hclean n hmem
    rw [← hnx]
    exact this
  · rw [if_neg hdl] at hcn
    exact Option.noConfusion hcn


/-- All members the child loop emits beyond the accumulator carry the parent
record path plus slash as a string prefix. -/
theorem packChildren_names_pref
    (go : String → String → List ZEntry → List ZEntry × Except Err Unit)
    (srcPath rc : String) (fs : FS) (fn : Visitor) (hrc : Canon rc)
    (hgo : ∀ c r zw, Canon r → strPref (rc ++ "/") (r ++ "/") →
        ∀ m ∈ (go c r zw).1, m ∈ zw ∨ strPref (rc ++ "/") m.name) :
    ∀ (l : List (String × FsNode)), (∀ x ∈ l, cleanComp x.1 = true) →
      ∀ (zw : List ZEntry), ∀ m ∈ (packChildren go srcPath rc fs fn l zw).1,
        m ∈ zw ∨ strPref (rc ++ "/") m.name := by
  intro l
  induction l with
  | nil =>
    intro _ zw m hm
    rw [packChildren] at hm
    exact .inl hm
  | cons x rest ih =>
    intro hcl zw m hm
    obtain ⟨name, node⟩ := x
    rw [packChildren] at hm
    by_cases hflt : globalFilter name = true
    · rw [if_pos hflt] at hm
      exact ih (fun y hy => hcl y (List.mem_cons_of_mem _ hy)) zw m hm
    · rw [if_neg hflt] at hm
      dsimp only at hm
      have hcn : cleanComp name = true := hcl (name, node) (List.mem_cons_self _ _)
      have hjoin : pathJoinS rc name = rc ++ "/" ++ name := pathJoinS_eq_of_canon hrc hcn
      have hcanon2 : Canon (pathJoinS rc name) := canon_pathJoinS hrc hcn
      have hpref1 : strPref (rc ++ "/") (pathJoinS rc name) := by
        rw [hjoin]
        exact strPref_append _ _
      have hpref2 : strPref (rc ++ "/") (pathJoinS rc name ++ "/") := by
        rw [hjoin, strAppend_assoc]
        exact strPref_append _ _
      have hstep : ∀ zw1 : List ZEntry,
          (∀ m2 ∈ zw1, m2 ∈ zw ∨ strPref (rc ++ "/") m2.name) →
          ∀ fi0 src0, ∀ m2 ∈ (packFile src0 (pathJoinS rc name) zw1 fi0 fs).1,
            m2 ∈ zw ∨ strPref (rc ++ "/") m2.name := by
        intro zw1 hzw1 fi0 src0 m2 hm2
        rcases packFile_names src0 (pathJoinS rc name) zw1 fi0 fs m2 hm2 with h | h | h
        · exact hzw1 m2 h
        · exact .inr (by rw [h]; exact hpref2)
        · exact .inr (by rw [h]; exact hpref1)
      cases hv : fn (srcPath ++ "/" ++ name)
          { name := name, size := node.nodeSize, isDir := node.isDirB } with
      | error e =>
        rw [hv] at hm
        exact .inl hm
      | ok u =>
        rw [hv] at hm
        dsimp only at hm
        by_cases hnd : node.isDirB = true
        · rw [if_pos hnd] at hm
          rcases hpf : packFile srcPath (pathJoinS rc name) zw
              { name := name, size := node.nodeSize, isDir := true } fs with ⟨zw1, r1⟩
          rw [hpf] at hm
          have hzw1 : ∀ m2 ∈ zw1, m2 ∈ zw ∨ strPref (rc ++ "/") m2.name := by
            intro m2 hm2
            refine hstep zw (fun m3 hm3 => .inl hm3)
              { name := name, size := node.nodeSize, isDir := true } srcPath m2 ?_
            rw [hpf]
            exact hm2
          rcases r1 with e1 | u1
          · exact hzw1 m hm
          · dsimp only at hm
            rcases hgo2 : go (srcPath ++ "/" ++ name) (pathJoinS rc name) zw1 with ⟨zw2, r2⟩
            rw [hgo2] at hm
            have hzw2 : ∀ m2 ∈ zw2, m2 ∈ zw ∨ strPref (rc ++ "/") m2.name := by
              intro m2 hm2
              have := hgo (srcPath ++ "/" ++ name) (pathJoinS rc name) zw1 hcanon2 hpref2 m2
                (by rw [hgo2]; exact hm2)
              rcases this with h | h
              · exact hzw1 m2 h
              · exact .inr h
            rcases r2 with e2 | u2
            · exact hzw2 m hm
            · dsimp only at hm
              rcases ih (fun y hy => hcl y (List.mem_cons_of_mem _ hy)) zw2 m hm with h | h
              · exact hzw2 m h
              · exact .inr h
        · rw [if_neg hnd] at hm
          rcases hpf : packFile (srcPath ++ "/" ++ name) (pathJoinS rc name) zw
              { name := name, size := node.nodeSize, isDir := false } fs with ⟨zw1, r1⟩
          rw [hpf] at hm
          have hzw1 : ∀ m2 ∈ zw1, m2 ∈ zw ∨ strPref (rc ++ "/") m2.name := by
            intro m2 hm2
            refine hstep zw (fun m3 hm3 => .inl hm3)
              { name := name, size := node.nodeSize, isDir := false } (srcPath ++ "/" ++ name) m2 ?_
            rw [hpf]
            exact hm2
          rcases r1 with e1 | u1
          · exact hzw1 m hm
          · dsimp only at hm
            rcases ih (fun y hy => hcl y (List.mem_cons_of_mem _ hy)) zw1 m hm with h | h
            · exact hzw1 m h
            · exact .inr h

/-- All members packDir emits beyond the accumulator carry the record path
plus slash as a string prefix, for any fuel. -/
theorem packDir_names_pref (fuel : Nat) :
    ∀ (srcPath rc : String) (zw : List ZEntry) (fs : FS) (fn : Visitor),
      FS.WF fs = true → Canon rc →
      ∀ m ∈ (packDir fuel srcPath rc zw fs fn).1,
        m ∈ zw ∨ strPref (rc ++ "/") m.name := by
  induction fuel with
  | zero =>
    intro srcPath rc zw fs fn _ _ m hm
    rw [packDir] at hm
    exact .inl hm
  | succ fuel ih =>
    intro srcPath rc zw fs fn hwf hrc m hm
    rw [packDir] at hm
    cases hl : fs.lookup (splitPath srcPath) with
    | none =>
      rw [hl] at hm
      exact .inl hm
    | some n =>
      cases n with
      | file d =>
        rw [hl] at hm
        exact .inl hm
      | dir =>
        rw [hl] at hm
        dsimp only at hm
        refine packChildren_names_pref _ srcPath rc fs fn hrc ?_
          (fs.readdir (splitPath srcPath)) (readdir_names_clean fs _ hwf) zw m hm
        intro c r zw' hcan hpref m2 hm2
        rcases ih c r zw' fs fn hwf hcan m2 hm2 with h | h
        · exact .inl h
        · exact .inr (strPref_trans (by
            obtain ⟨t, ht⟩ := hpref
            exact ⟨t, ht⟩) h)

/-- The scratch path never holds a plain file in this model. -/
def TmpOK (fs : FS) (tmp : List String) : Prop :=
  ∀ d, fs.lookup tmp ≠ some (.file d)

/-- All members packToWriter with includeDir emits from a directory source
carry the source's base name plus slash as a string prefix. -/
theorem packToWriter_names_pref (srcPath : String) (fn : Visitor) (fs : FS)
    (hwf : FS.WF fs = true)
    (hnotfile : TmpOK fs (splitPath srcPath))
    (hbase : cleanComp (pathBaseS srcPath) = true) :
    ∀ m ∈ (packToWriter srcPath fn true fs).1,
      strPref (pathBaseS srcPath ++ "/") m.name := by
  intro m hm
  unfold packToWriter at hm
  cases hl : fs.lookup (splitPath srcPath) with
  | none =>
    rw [hl] at hm
    exact absurd hm (List.not_mem_nil m)
  | some n =>
    cases n with
    | file d => exact absurd hl (hnotfile d)
    | dir =>
      rw [hl] at hm
      dsimp only at hm
      rw [packFile_dir_eq srcPath (pathBaseS srcPath) []
        { name := pathBaseS srcPath, size := FsNode.dir.nodeSize, isDir := true } fs rfl] at hm
      dsimp only at hm
      rw [if_pos (by decide : FsNode.dir.isDirB = true)] at hm
      rw [if_pos (by decide : (true : Bool) = true)] at hm
      have hcanon : Canon (pathBaseS srcPath) := by
        constructor
        · rw [splitPath_single hbase]
          simp
        · rw [splitPath_single hbase]
          rfl
      rcases packDir_names_pref (fs.entries.length + 1) srcPath (pathBaseS srcPath)
          ([] ++ [⟨pathBaseS srcPath ++ "/", 0, .bytes ""⟩]) fs fn hwf hcanon m hm with h | h
      · have hx : m = ⟨pathBaseS srcPath ++ "/", 0, .bytes ""⟩ := by simpa using h
        rw [hx]
        exact strPref_refl _
      · exact h


theorem fsCopy_tmpOK (src dst : String) (fs : FS) (tmp : List String)
    (hne : tmp ≠ splitPath dst) (h : TmpOK fs tmp) :
    TmpOK ((fsCopy src dst fs).1) tmp := by
  unfold fsCopy
  cases hs : fs.lookup (splitPath src) with
  | none => exact h
  | some n =>
    cases n with
    | dir => exact h
    | file d =>
      dsimp only
      have h1 : TmpOK ((mkdirAll fs (splitPath dst).dropLast).1) tmp := by
        unfold mkdirAll
        exact fun d2 hc => h d2 (mkdirWalk_no_new_file _ _ _ _ d2 hc)
      rcases hoc : osCreate ((mkdirAll fs (splitPath dst).dropLast).1) (splitPath dst)
          with ⟨fs2, r⟩
      have hfs2 : fs2 = (osCreate ((mkdirAll fs (splitPath dst).dropLast).1) (splitPath dst)).1 := by
        rw [hoc]
      rcases r with e | u
      · dsimp only
        intro d2 hc
        rw [hfs2, osCreate_lookup_other _ hne] at hc
        exact h1 d2 hc
      · dsimp only
        intro d2 hc
        rw [FS.lookup_setNode_other _ _ hne, hfs2, osCreate_lookup_other _ hne] at hc
        exact h1 d2 hc

theorem extractFile_tmpOK (f : ZEntry) (destPath : String) (fs : FS) (tmp : List String)
    (hne : tmp ≠ splitPath destPath ++ splitPath f.name) (h : TmpOK fs tmp) :
    TmpOK ((extractFile f destPath fs).1) tmp := by
  unfold extractFile
  dsimp only
  have h1 : TmpOK ((mkdirAll fs (splitPath destPath ++ (splitPath f.name).dropLast)).1) tmp := by
    unfold mkdirAll
    exact fun d2 hc => h d2 (mkdirWalk_no_new_file _ _ _ _ d2 hc)
  rcases hoc : osCreate ((mkdirAll fs (splitPath destPath ++ (splitPath f.name).dropLast)).1)
      (splitPath destPath ++ splitPath f.name) with ⟨fs2, r⟩
  have hfs2 : fs2 = (osCreate ((mkdirAll fs (splitPath destPath ++ (splitPath f.name).dropLast)).1)
      (splitPath destPath ++ splitPath f.name)).1 := by
    rw [hoc]
  rcases r with e | u
  · dsimp only
    intro d2 hc
    rw [hfs2, osCreate_lookup_other _ hne] at hc
    exact h1 d2 hc
  · dsimp only
    intro d2 hc
    rw [FS.lookup_setNode_other _ _ hne, hfs2, osCreate_lookup_other _ hne] at hc
    exact h1 d2 hc

theorem zextractFile_joined_tmpOK (z : ZipArchive) (tmpStr base absPath : String)
    (fs : FS) (hbase : splitPath base ≠ []) (h : TmpOK fs (splitPath tmpStr)) :
    TmpOK ((z.extractFile ⟨pathJoinS tmpStr base, absPath⟩ fs).1) (splitPath tmpStr) := by
  have hne1 : splitPath tmpStr ≠ splitPath (pathJoinS tmpStr base) := by
    rw [splitPath_pathJoinS]
    intro hc
    have hlen := congrArg List.length hc
    rw [List.length_append] at hlen
    have : (splitPath base).length = 0 := by omega
    exact hbase (List.length_eq_zero.1 this)
  unfold ZipArchive.extractFile
  cases hwb : z.isHasWriter with
  | true =>
    rw [if_neg (by simp)]
    exact fsCopy_tmpOK _ _ _ _ hne1 h
  | false =>
    rw [if_pos (by simp)]
    cases hrc : z.ReadCloser with
    | none => exact h
    | some ms =>
      dsimp only
      cases hf : ms.find?
          (fun zf => (FileEnt.mk (pathJoinS tmpStr base) absPath).name == zf.name) with
      | some zf =>
        have hpred := List.find?_some hf
        have heq : pathJoinS tmpStr base = zf.name := by simpa using hpred
        refine extractFile_tmpOK zf absPath fs _ ?_ h
        rw [← heq, splitPath_pathJoinS]
        intro hc
        have hlen := congrArg List.length hc
        rw [List.length_append, List.length_append] at hlen
        have : (splitPath base).length = 0 := by omega
        exact hbase (List.length_eq_zero.1 this)
      | none =>
        exact fsCopy_tmpOK _ _ _ _ hne1 h

theorem zextractFile_WF (z : ZipArchive) (f : FileEnt) (fs : FS)
    (h : FS.WF fs = true) : FS.WF ((z.extractFile f fs).1) = true := by
  unfold ZipArchive.extractFile
  cases hwb : z.isHasWriter with
  | true =>
    rw [if_neg (by simp)]
    exact fsCopy_WF _ _ _ h
  | false =>
    rw [if_pos (by simp)]
    cases hrc : z.ReadCloser with
    | none => exact h
    | some ms =>
      dsimp only
      cases hf : ms.find? (fun zf => f.name == zf.name) with
      | some zf => exact extractFile_WF _ _ _ h
      | none => exact fsCopy_WF _ _ _ h

theorem flushLoop_WF (z : ZipArchive) (tmpStr : String) (l : List FileEnt) (fs : FS)
    (h : FS.WF fs = true) : FS.WF ((flushLoop z tmpStr l fs).2.1) = true := by
  induction l generalizing fs with
  | nil => exact h
  | cons f rest ih =>
    rw [flushLoop]
    by_cases hd : endsSlash f.name = true
    · rw [if_pos hd]
      dsimp only
      refine ih _ ?_
      unfold mkdirAll
      refine FS.WF_mkdirWalk fs [] _ ?_ h
      simpa using cleanComps_append (splitPath_clean tmpStr) (splitPath_clean f.name)
    · rw [if_neg hd]
      dsimp only
      rcases he : z.extractFile { f with name := pathJoinS tmpStr f.name } fs with ⟨fs1, r⟩
      have hw1 : FS.WF fs1 = true := by
        have h0 := zextractFile_WF z { f with name := pathJoinS tmpStr f.name } fs h
        rw [he] at h0
        exact h0
      rcases r with e | u
      · exact hw1
      · dsimp only
        exact ih fs1 hw1

theorem flushLoop_tmpOK (z : ZipArchive) (tmpStr : String) (l : List FileEnt) (fs : FS)
    (hnames : ∀ f ∈ l, splitPath f.name ≠ [])
    (h : TmpOK fs (splitPath tmpStr)) :
    TmpOK ((flushLoop z tmpStr l fs).2.1) (splitPath tmpStr) := by
  induction l generalizing fs with
  | nil => exact h
  | cons f rest ih =>
    rw [flushLoop]
    by_cases hd : endsSlash f.name = true
    · rw [if_pos hd]
      dsimp only
      refine ih _ (fun f2 hf2 => hnames f2 (List.mem_cons_of_mem _ hf2)) ?_
      unfold mkdirAll
      exact fun d2 hc => h d2 (mkdirWalk_no_new_file _ _ _ _ d2 hc)
    · rw [if_neg hd]
      dsimp only
      rcases he : z.extractFile { f with name := pathJoinS tmpStr f.name } fs with ⟨fs1, r⟩
      have h1 : TmpOK fs1 (splitPath tmpStr) := by
        have h0 := zextractFile_joined_tmpOK z tmpStr f.name f.absPath fs
          (hnames f (List.mem_cons_self _ _)) h
        rw [he] at h0
        exact h0
      rcases r with e | u
      · exact h1
      · dsimp only
        exact ih fs1 (fun f2 hf2 => hnames f2 (List.mem_cons_of_mem _ hf2)) h1

/-- Claim C1 (amended): when a writer-backed dirty Session is flushed, the
scratch tree is packed with its root directory wrapped as an archive member
(includeDir is passed as true at write.go:159), so every member name written
to the writer carries the scratch root's base name — the backing archive's
base name — plus a slash as a leading prefix; no member is named by the
entry's bare slash path.  The dot-dot hypotheses mark the model's path
fidelity boundary, and entry names must have at least one path component. -/
theorem c1_flush_writer_members_prefixed (z : ZipArchive) (fs : FS)
    (hw : z.isHasWriter = true) (hc : z.isHasChanged = true)
    (hout : z.writerOut = []) (hwf : FS.WF fs = true)
    (hnames : ∀ f ∈ z.files, splitPath f.name ≠ [])
    (hnd1 : noDotDot (splitPath z.FileName) = true)
    (hnd2 : z.files.all (fun f => noDotDot (splitPath f.name)) = true) :
    ∀ m ∈ (z.Flush fs).2.2.writerOut,
      strPref (pathBaseS (tmpPathOf z.FileName) ++ "/") m.name := by
  have hguard : (!z.isHasChanged || (z.ReadCloser.isNone && !z.isHasWriter)) = false := by
    simp [hw, hc]
  have htmpcc : splitPath (pathJoinS tempDir "cae") = ["tmp", "cae"] := by decide
  have htmpne : splitPath (tmpPathOf z.FileName) ≠ [] := by
    unfold tmpPathOf
    rw [splitPath_pathJoinS, htmpcc]
    simp
  intro m hm
  rcases h1 : flushLoop z (tmpPathOf z.FileName) z.files
      (fs.removeAll (splitPath (tmpPathOf z.FileName))) with ⟨fl, fs1, r⟩
  rcases r with e | u
  · rw [flush_loop_error_eq z fs hguard fl fs1 e h1] at hm
    dsimp only at hm
    rw [hout] at hm
    exact absurd hm (List.not_mem_nil m)
  · cases u
    rw [flush_writer_ok_eq z fs hguard hw fl fs1 h1] at hm
    dsimp only at hm
    rw [hout, List.nil_append] at hm
    have hwf1 : FS.WF fs1 = true := by
      have h0 := flushLoop_WF z (tmpPathOf z.FileName) z.files
        (fs.removeAll (splitPath (tmpPathOf z.FileName)))
        (FS.WF_removeAll fs _ hwf)
      rw [h1] at h0
      exact h0
    have htmp1 : TmpOK fs1 (splitPath (tmpPathOf z.FileName)) := by
      have h0 := flushLoop_tmpOK z (tmpPathOf z.FileName) z.files
        (fs.removeAll (splitPath (tmpPathOf z.FileName))) hnames ?_
      · rw [h1] at h0
        exact h0
      · intro d hc2
        rw [FS.lookup_removeAll_of_pref fs (compsPref_iff.2 (List.prefix_refl _))] at hc2
        exact Option.noConfusion hc2
    exact packToWriter_names_pref (tmpPathOf z.FileName) defaultPackFunc fs1 hwf1 htmp1
      (pathBaseS_clean htmpne) m hm

/-- Claim C1, counterexample: flushing the concrete writer-backed Session zA
(archive name x.zip, one entry named a) writes the members x.zip/ and
x.zip/a — the scratch root is wrapped and every name is prefixed — whereas
the claim requires the single flattened member name a. -/
theorem c1_flattened_counterexample :
    ((zA.Flush fsA).2.2.writerOut.map ZEntry.name) = ["x.zip/", "x.zip/a"] ∧
      zA.files.map FileEnt.name = ["a"] :=
  ⟨rfl, rfl⟩

/-- Witness for c1_flush_writer_members_prefixed at the concrete Session zA:
the second written member is prefixed by the archive base name. -/
theorem c1_flush_writer_members_prefixed_witness :
    strPref (pathBaseS (tmpPathOf zA.FileName) ++ "/")
      ((zA.Flush fsA).2.2.writerOut.get ⟨1, by decide⟩).name :=
  c1_flush_writer_members_prefixed zA fsA rfl rfl rfl (by decide)
    (by decide) (by decide) (by decide) _ (List.get_mem _ _ _)


/-! ## Claim C7 -/

/-- The selection semantics of the extraction loop: running with a non-empty
selection list equals running with no selection over exactly the entries
whose slash-normalized name matches the selection — skipped entries
contribute no visitor call and no filesystem action. -/
theorem extractLoop_selection_filter (destPath : String) (fn : Visitor)
    (S : List String) (hS : S ≠ []) (l : List ZEntry) (fs : FS) :
    extractLoop destPath fn S l fs
      = extractLoop destPath fn []
          (l.filter (fun f => isEntry (normSlashes f.name) S)) fs := by
  have hne : S.isEmpty = false := by
    cases S with
    | nil => exact absurd rfl hS
    | cons a t => rfl
  induction l generalizing fs with
  | nil => rfl
  | cons f rest ih =>
    rw [List.filter_cons]
    by_cases hsel : isEntry (normSlashes f.name) S = true
    · rw [if_pos hsel]
      rw [extractLoop, extractLoop]
      dsimp only
      rw [hne]
      by_cases hd : endsSlash (normSlashes f.name) = true
      · rw [if_pos hd, if_pos hd]
        rw [if_pos (by simp), if_pos hsel]
        cases hv : fn (normSlashes f.name) (ZEntry.finfo { f with name := normSlashes f.name }) with
        | error e => rfl
        | ok u => exact ih _
      · rw [if_neg hd, if_neg hd]
        rw [if_pos (by simp), if_pos hsel]
        cases hv : fn (normSlashes f.name) (ZEntry.finfo { f with name := normSlashes f.name }) with
        | error e => rfl
        | ok u =>
          rcases he : extractFile { f with name := normSlashes f.name } destPath fs with ⟨fs2, r⟩
          rcases r with e | u2
          · rfl
          · exact ih _
    · rw [if_neg hsel]
      rw [extractLoop]
      dsimp only
      rw [hne]
      by_cases hd : endsSlash (normSlashes f.name) = true
      · rw [if_pos hd, if_pos (by simp), if_neg hsel]
        exact ih fs
      · rw [if_neg hd, if_pos (by simp), if_neg hsel]
        exact ih fs

/-- Claim C7: for every non-empty selection list, ExtractToFunc materializes
exactly the entries whose slash-normalized name equals an element of the
selection — the run is equal, filesystem effects and visitor behavior
included, to a no-selection run over the archive restricted to exactly those
entries, so skipped entries get no visitor call and no write, and nothing
outside the selected entries' paths is touched. -/
theorem c7_extract_selection_semantics (z : ZipArchive) (destPath : String)
    (fn : Visitor) (S : List String) (hS : S ≠ []) (fs : FS) :
    z.ExtractToFunc destPath fn S fs
      = ZipArchive.ExtractToFunc
          ⟨z.FileName, z.Permission, z.isHasWriter, z.isHasChanged,
            some (z.File.filter (fun f => isEntry (normSlashes f.name) S)),
            z.files, z.writerOut⟩
          destPath fn [] fs := by
  unfold ZipArchive.ExtractToFunc
  exact extractLoop_selection_filter (normSlashes destPath) fn S hS z.File _

/-- Archive with a directory marker and two files, one inside the
directory. -/
def arc7 : ZipArchive := ⟨"a.zip", 0, false, false,
  some [⟨"sub/", 0, .bytes ""⟩, ⟨"sub\\b.txt", 5, .bytes "world"⟩, ⟨"a.txt", 5, .bytes "hello"⟩],
  [], []⟩

/-- Witness for c7_extract_selection_semantics at a concrete archive and
selection. -/
theorem c7_extract_selection_semantics_witness :
    arc7.ExtractToFunc "out" defaultExtractFunc ["a.txt"] ⟨[]⟩
      = ZipArchive.ExtractToFunc
          ⟨arc7.FileName, arc7.Permission, arc7.isHasWriter, arc7.isHasChanged,
            some (arc7.File.filter (fun f => isEntry (normSlashes f.name) ["a.txt"])),
            arc7.files, arc7.writerOut⟩
          "out" defaultExtractFunc [] ⟨[]⟩ :=
  c7_extract_selection_semantics arc7 "out" defaultExtractFunc ["a.txt"] (by decide) ⟨[]⟩


/-! ## Claim C6 -/

/-- The extraction loop processes a concatenation by processing the first
part and, only when it fully succeeded, continuing with the second from the
resulting filesystem. -/
theorem extractLoop_append (destPath : String) (fn : Visitor) (entries : List String)
    (l1 l2 : List ZEntry) (fs : FS) :
    extractLoop destPath fn entries (l1 ++ l2) fs
      = match extractLoop destPath fn entries l1 fs with
        | (fs1, .ok _) => extractLoop destPath fn entries l2 fs1
        | (fs1, .error e) => (fs1, .error e) := by
  induction l1 generalizing fs with
  | nil => rfl
  | cons f rest ih =>
    rw [List.cons_append, extractLoop, extractLoop]
    dsimp only
    by_cases hd : endsSlash (normSlashes f.name) = true
    · rw [if_pos hd, if_pos hd]
      by_cases hne : entries.isEmpty = false
      · rw [hne]
        by_cases hsel : isEntry (normSlashes f.name) entries = true
        · rw [if_pos (by simp), if_pos hsel, if_pos (by simp), if_pos hsel]
          cases hv : fn (normSlashes f.name) (ZEntry.finfo { f with name := normSlashes f.name }) with
          | error e => rfl
          | ok u => exact ih _
        · rw [if_pos (by simp), if_neg hsel, if_pos (by simp), if_neg hsel]
          exact ih fs
      · have hT : entries.isEmpty = true := by
          cases hx : entries.isEmpty with
          | true => rfl
          | false => exact absurd hx hne
        rw [hT]
        rw [if_neg (by simp), if_neg (by simp)]
        cases hv : fn (normSlashes f.name) (ZEntry.finfo { f with name := normSlashes f.name }) with
        | error e => rfl
        | ok u => exact ih _
    · rw [if_neg hd, if_neg hd]
      by_cases hne : entries.isEmpty = false
      · rw [hne]
        by_cases hsel : isEntry (normSlashes f.name) entries = true
        · rw [if_pos (by simp), if_pos hsel, if_pos (by simp), if_pos hsel]
          cases hv : fn (normSlashes f.name) (ZEntry.finfo { f with name := normSlashes f.name }) with
          | error e => rfl
          | ok u =>
            rcases he : extractFile { f with name := normSlashes f.name } destPath fs with ⟨fs2, r⟩
            rcases r with e | u2
            · rfl
            · exact ih _
        · rw [if_pos (by simp), if_neg hsel, if_pos (by simp), if_neg hsel]
          exact ih fs
      · have hT : entries.isEmpty = true := by
          cases hx : entries.isEmpty with
          | true => rfl
          | false => exact absurd hx hne
        rw [hT]
        rw [if_neg (by simp), if_neg (by simp)]
        cases hv : fn (normSlashes f.name) (ZEntry.finfo { f with name := normSlashes f.name }) with
        | error e => rfl
        | ok u =>
          rcases he : extractFile { f with name := normSlashes f.name } destPath fs with ⟨fs2, r⟩
          rcases r with e | u2
          · rfl
          · exact ih _

/-- The pack child loop processes a concatenation by processing the first
part and, only when it fully succeeded, continuing with the second from the
resulting writer state. -/
theorem packChildren_append
    (go : String → String → List ZEntry → List ZEntry × Except Err Unit)
    (srcPath recPath : String) (fs : FS) (fn : Visitor)
    (l1 l2 : List (String × FsNode)) (zw : List ZEntry) :
    packChildren go srcPath recPath fs fn (l1 ++ l2) zw
      = match packChildren go srcPath recPath fs fn l1 zw with
        | (zw1, .ok _) => packChildren go srcPath recPath fs fn l2 zw1
        | (zw1, .error e) => (zw1, .error e) := by
  induction l1 generalizing zw with
  | nil => rfl
  | cons x rest ih =>
    obtain ⟨name, node⟩ := x
    rw [List.cons_append, packChildren, packChildren]
    by_cases hflt : globalFilter name = true
    · rw [if_pos hflt, if_pos hflt]
      exact ih zw
    · rw [if_neg hflt, if_neg hflt]
      dsimp only
      cases hv : fn (srcPath ++ "/" ++ name)
          { name := name, size := node.nodeSize, isDir := node.isDirB } with
      | error e => rfl
      | ok u =>
        dsimp only
        by_cases hnd : node.isDirB = true
        · rw [if_pos hnd, if_pos hnd]
          rcases hpf : packFile srcPath (pathJoinS recPath name) zw
              { name := name, size := node.nodeSize, isDir := true } fs with ⟨zw1, r1⟩
          rcases r1 with e1 | u1
          · rfl
          · dsimp only
            rcases hgo : go (srcPath ++ "/" ++ name) (pathJoinS recPath name) zw1 with ⟨zw2, r2⟩
            rcases r2 with e2 | u2
            · rfl
            · exact ih zw2
        · rw [if_neg hnd, if_neg hnd]
          rcases hpf : packFile (srcPath ++ "/" ++ name) (pathJoinS recPath name) zw
              { name := name, size := node.nodeSize, isDir := false } fs with ⟨zw1, r1⟩
          rcases r1 with e1 | u1
          · rfl
          · exact ih zw1

/-- Claim C6: in both traversals the visitor runs before the filesystem or
writer action and its error aborts the whole operation with exactly that
error, leaving every later entry unprocessed.  First conjunct: if the
extraction loop succeeds on a prefix of the archive and the visitor rejects
the next visited entry (one matching the selection, or any entry when there
is no selection), ExtractToFunc returns exactly that error with the
filesystem as it was after the prefix — the rejected entry and everything
after it cause no action and no further visits.  Second conjunct: the same
for packDir over the directory listing. -/
theorem c6_visitor_abort_semantics :
    (∀ (z : ZipArchive) (destPath : String) (fn : Visitor) (S : List String)
       (pre : List ZEntry) (f : ZEntry) (post : List ZEntry) (fs fs1 : FS) (e : Err),
       z.File = pre ++ f :: post →
       extractLoop (normSlashes destPath) fn S pre
           ((mkdirAll fs (splitPath (normSlashes destPath))).1) = (fs1, .ok ()) →
       (S.isEmpty = true ∨ isEntry (normSlashes f.name) S = true) →
       fn (normSlashes f.name) (ZEntry.finfo { f with name := normSlashes f.name })
         = .error e →
       z.ExtractToFunc destPath fn S fs = (fs1, .error e)) ∧
    (∀ (fuel : Nat) (srcPath recPath : String) (zw : List ZEntry) (fs : FS)
       (fn : Visitor) (pre : List (String × FsNode)) (name : String) (node : FsNode)
       (post : List (String × FsNode)) (zw1 : List ZEntry) (e : Err),
       fs.lookup (splitPath srcPath) = some .dir →
       fs.readdir (splitPath srcPath) = pre ++ (name, node) :: post →
       packChildren (fun c r zw2 => packDir fuel c r zw2 fs fn) srcPath recPath fs fn
           pre zw = (zw1, .ok ()) →
       globalFilter name = false →
       fn (srcPath ++ "/" ++ name)
           { name := name, size := node.nodeSize, isDir := node.isDirB } = .error e →
       packDir (fuel + 1) srcPath recPath zw fs fn = (zw1, .error e)) := by
  constructor
  · intro z destPath fn S pre f post fs fs1 e hfile hpre hvis hfn
    unfold ZipArchive.ExtractToFunc
    rw [hfile, extractLoop_append, hpre]
    dsimp only
    rw [extractLoop]
    dsimp only
    rcases hvis with hS | hsel
    · rw [hS]
      by_cases hd : endsSlash (normSlashes f.name) = true
      · rw [if_pos hd, if_neg (by simp), hfn]
      · rw [if_neg hd, if_neg (by simp), hfn]
    · by_cases hS : S.isEmpty = true
      · rw [hS]
        by_cases hd : endsSlash (normSlashes f.name) = true
        · rw [if_pos hd, if_neg (by simp), hfn]
        · rw [if_neg hd, if_neg (by simp), hfn]
      · have hSf : S.isEmpty = false := by
          cases hx : S.isEmpty with
          | true => exact absurd hx hS
          | false => rfl
        rw [hSf]
        by_cases hd : endsSlash (normSlashes f.name) = true
        · rw [if_pos hd, if_pos (by simp), if_pos hsel, hfn]
        · rw [if_neg hd, if_pos (by simp), if_pos hsel, hfn]
  · intro fuel srcPath recPath zw fs fn pre name node post zw1 e hdir hrd hpre hflt hfn
    rw [packDir, hdir]
    dsimp only
    rw [hrd, packChildren_append, hpre]
    dsimp only
    rw [packChildren, if_neg (by rw [hflt]; exact Bool.false_ne_true)]
    dsimp only
    rw [hfn]

/-- Visitor that rejects exactly the entry named b. -/
def rejectB : Visitor := fun n _ => if n == "b" then .error (.custom 7) else .ok ()

/-- Two-file archive for the C6 witness. -/
def arc6 : ZipArchive := ⟨"c.zip", 0, false, false,
  some [⟨"a", 1, .bytes "x"⟩, ⟨"b", 1, .bytes "y"⟩, ⟨"c", 1, .bytes "z"⟩], [], []⟩

/-- Visitor that rejects exactly the path d/b. -/
def rejectDB : Visitor := fun n _ => if n == "d/b" then .error (.custom 9) else .ok ()

/-- Directory tree for the C6 pack witness. -/
def fs6 : FS := ⟨[(["d"], .dir), (["d","a"], .file (.bytes "u")), (["d","b"], .file (.bytes "v")),
  (["d","c"], .file (.bytes "w"))]⟩

/-- Witness for c6_visitor_abort_semantics: both conjuncts applied at
concrete inputs where the visitor rejects the second entry. -/
theorem c6_visitor_abort_semantics_witness :
    arc6.ExtractToFunc "out" rejectB [] ⟨[]⟩
      = (⟨[(["out"], .dir), (["out","a"], .file (.bytes "x"))]⟩, .error (.custom 7)) ∧
    packDir 2 "d" "" [] fs6 rejectDB
      = ([⟨"a", 1 % 2 ^ 32, .bytes "u"⟩], .error (.custom 9)) :=
  ⟨c6_visitor_abort_semantics.1 arc6 "out" rejectB [] [⟨"a", 1, .bytes "x"⟩]
      ⟨"b", 1, .bytes "y"⟩ [⟨"c", 1, .bytes "z"⟩] ⟨[]⟩
      ⟨[(["out"], .dir), (["out","a"], .file (.bytes "x"))]⟩ (.custom 7)
      rfl rfl (.inl rfl) rfl,
   c6_visitor_abort_semantics.2 1 "d" "" [] fs6 rejectDB
      [("a", .file (.bytes "u"))] "b" (.file (.bytes "v")) [("c", .file (.bytes "w"))]
      [⟨"a", 1 % 2 ^ 32, .bytes "u"⟩] (.custom 9)
      rfl rfl rfl rfl rfl⟩


/-! ## Claim C9: string lemmas -/

theorem splitCharsAux_append_slash (xs ys : List Char) (acc : List Char) :
    splitCharsAux (xs ++ '/' :: ys) acc = splitCharsAux xs acc ++ splitCharsAux ys [] := by
  induction xs generalizing acc with
  | nil =>
    rw [List.nil_append, splitCharsAux_slash]
    rfl
  | cons c cs ih =>
    by_cases hc : c = '/'
    · subst hc
      rw [List.cons_append, splitCharsAux_slash, splitCharsAux_slash, ih, List.cons_append]
    · rw [List.cons_append]
      simp only [splitCharsAux, if_neg hc]
      exact ih (c :: acc)

theorem data_slash : ("/" : String).data = ['/'] := rfl

theorem splitPath_slash_append (a b : String) :
    splitPath (a ++ "/" ++ b) = splitPath a ++ splitPath b := by
  unfold splitPath
  have hdata : (a ++ "/" ++ b).data = a.data ++ '/' :: b.data := by
    rw [data_append, data_append, data_slash]
    simp
  rw [hdata, splitCharsAux_append_slash, List.map_append, List.filter_append]

theorem strAppend_right_empty (s : String) : s ++ "" = s := by
  apply str_ext
  simp [data_append]

theorem splitPath_empty : splitPath "" = [] := by decide

theorem splitPath_append_slash (s : String) : splitPath (s ++ "/") = splitPath s := by
  have h : s ++ "/" = s ++ "/" ++ "" := by rw [strAppend_right_empty]
  rw [h, splitPath_slash_append, splitPath_empty, List.append_nil]

theorem endsSlash_append_slash (s : String) : endsSlash (s ++ "/") = true := by
  unfold endsSlash
  rw [data_append, data_slash]
  simp [List.getLast?_concat]

theorem data_ne_nil_of_ne_empty {s : String} (h : s ≠ "") : s.data ≠ [] := by
  intro hc
  exact h (str_ext (by simp [hc]))

theorem joinComps_data_ne_nil {l : List String} (hc : cleanComps l = true)
    (hl : l ≠ []) : (joinComps l).data ≠ [] := by
  cases l with
  | nil => exact absurd rfl hl
  | cons c t =>
    cases t with
    | nil =>
      have hcc : cleanComp c = true := List.all_eq_true.1 hc c (by simp)
      exact data_ne_nil_of_ne_empty (by
        have := (cleanComp_iff.1 hcc).1
        unfold goodComp at this
        have h2 := (Bool.and_eq_true _ _).mp this
        simpa using h2.1)
    | cons c2 t2 =>
      rw [joinComps_cons c (c2 :: t2) (by simp), data_append]
      intro hx
      have := List.append_eq_nil.1 hx
      rw [data_append] at this
      have h2 := List.append_eq_nil.1 this.1
      simp [data_slash] at h2

theorem endsSlash_joinComps {l : List String} (hc : cleanComps l = true)
    (hl : l ≠ []) : endsSlash (joinComps l) = false := by
  induction l with
  | nil => exact absurd rfl hl
  | cons c t ih =>
    cases t with
    | nil =>
      have hcc : cleanComp c = true := List.all_eq_true.1 hc c (by simp)
      obtain ⟨hg, hns⟩ := cleanComp_iff.1 hcc
      show (c.data.getLast? = some '/' : Bool) = false
      cases hgl : c.data.getLast? with
      | none => simp
      | some ch =>
        have hmem : ch ∈ c.data := mem_of_getLastQ hgl
        have : ch ≠ '/' := fun hx => hns (hx ▸ hmem)
        simp [this]
    | cons c2 t2 =>
      have hct : cleanComps (c2 :: t2) = true := by
        apply List.all_eq_true.2
        intro x hx
        exact List.all_eq_true.1 hc x (by simp [hx])
      rw [joinComps_cons c (c2 :: t2) (by simp)]
      unfold endsSlash
      rw [data_append]
      rw [List.getLast?_append_of_ne_nil _ (joinComps_data_ne_nil hct (by simp))]
      exact ih hct (by simp)

/-- Strings free of backslashes; the path model's normalization is the
identity on them. -/
def strNoBS (s : String) : Bool := s.data.all (fun ch => ch ≠ '\\')

def compsNoBS (l : List String) : Bool := l.all strNoBS

/-- Every key of the filesystem has backslash-free components. -/
def FS.NoBS (fs : FS) : Bool := fs.entries.all (fun e => compsNoBS e.1)

theorem normSlashes_id_of_noBS {s : String} (h : strNoBS s = true) :
    normSlashes s = s := by
  apply str_ext
  show s.data.map (fun c => if c = '\\' then '/' else c) = s.data
  have hcong : ∀ c ∈ s.data, (if c = '\\' then '/' else c) = c := by
    intro c hc
    have h2 := List.all_eq_true.1 h c hc
    simp only [decide_eq_true_eq] at h2
    rw [if_neg h2]
  rw [List.map_congr_left hcong]
  simp


theorem strNoBS_append {a b : String} (ha : strNoBS a = true) (hb : strNoBS b = true) :
    strNoBS (a ++ b) = true := by
  unfold strNoBS at *
  rw [data_append, List.all_append, ha, hb]
  rfl

theorem strNoBS_joinComps {l : List String} (h : compsNoBS l = true) :
    strNoBS (joinComps l) = true := by
  induction l with
  | nil => decide
  | cons c t ih =>
    have hc : strNoBS c = true := List.all_eq_true.1 h c (by simp)
    have ht : compsNoBS t = true := by
      apply List.all_eq_true.2
      intro x hx
      exact List.all_eq_true.1 h x (by simp [hx])
    cases t with
    | nil => exact hc
    | cons c2 t2 =>
      rw [joinComps_cons c (c2 :: t2) (by simp)]
      exact strNoBS_append (strNoBS_append hc (by decide)) (ih ht)

theorem splitCharsAux_mem_subset :
    ∀ (ds acc : List Char), ∀ l ∈ splitCharsAux ds acc, ∀ ch ∈ l, ch ∈ ds ∨ ch ∈ acc := by
  intro ds
  induction ds with
  | nil =>
    intro acc l hl ch hch
    simp only [splitCharsAux, List.mem_singleton] at hl
    subst hl
    exact .inr (List.mem_reverse.1 hch)
  | cons c cs ih =>
    intro acc l hl ch hch
    by_cases hc : c = '/'
    · subst hc
      rw [splitCharsAux_slash] at hl
      rcases List.mem_cons.1 hl with h1 | h1
      · subst h1
        exact .inr (List.mem_reverse.1 hch)
      · rcases ih [] l h1 ch hch with h2 | h2
        · exact .inl (List.mem_cons_of_mem _ h2)
        · exact absurd h2 (List.not_mem_nil ch)
    · simp only [splitCharsAux, if_neg hc] at hl
      rcases ih (c :: acc) l hl ch hch with h2 | h2
      · exact .inl (List.mem_cons_of_mem _ h2)
      · rcases List.mem_cons.1 h2 with h3 | h3
        · subst h3
          exact .inl (List.mem_cons_self _ _)
        · exact .inr h3

theorem compsNoBS_splitPath {s : String} (h : strNoBS s = true) :
    compsNoBS (splitPath s) = true := by
  apply List.all_eq_true.2
  intro c hc
  unfold splitPath at hc
  have hmem := (List.mem_filter.1 hc).1
  obtain ⟨l, hl, rfl⟩ := List.mem_map.1 hmem
  apply List.all_eq_true.2
  intro ch hch
  rcases splitCharsAux_mem_subset s.data [] l hl ch hch with h2 | h2
  · exact List.all_eq_true.1 h ch h2
  · exact absurd h2 (List.not_mem_nil ch)

theorem compsNoBS_append {a b : List String} (ha : compsNoBS a = true)
    (hb : compsNoBS b = true) : compsNoBS (a ++ b) = true := by
  apply List.all_eq_true.2
  intro x hx
  rcases List.mem_append.1 hx with h | h
  · exact List.all_eq_true.1 ha x h
  · exact List.all_eq_true.1 hb x h

theorem strNoBS_pathJoinS {a b : String} (ha : strNoBS a = true)
    (hb : strNoBS b = true) : strNoBS (pathJoinS a b) = true :=
  strNoBS_joinComps (compsNoBS_append (compsNoBS_splitPath ha) (compsNoBS_splitPath hb))

/-- Keys of the filesystem are pairwise distinct. -/
def NodupKeys (fs : FS) : Prop := (fs.entries.map (fun e => e.1)).Nodup

theorem lookupL_of_mem_nodup (l : List (List String × FsNode))
    (hnd : (l.map (fun e => e.1)).Nodup) (e : List String × FsNode)
    (he : e ∈ l) : lookupL l e.1 = some e.2 := by
  induction l with
  | nil => exact absurd he (List.not_mem_nil e)
  | cons e0 rest ih =>
    rw [List.map_cons] at hnd
    have hnd2 := List.nodup_cons.1 hnd
    rw [lookupL_cons]
    rcases List.mem_cons.1 he with h1 | h1
    · subst h1
      rw [if_pos rfl]
    · by_cases hk : e0.1 = e.1
      · exfalso
        apply hnd2.1
        rw [hk]
        exact List.mem_map.2 ⟨e, h1, rfl⟩
      · rw [if_neg hk]
        exact ih hnd2.2 h1

theorem lookup_of_mem_nodup (fs : FS) (hnd : NodupKeys fs) (e : List String × FsNode)
    (he : e ∈ fs.entries) : fs.lookup e.1 = some e.2 := by
  rw [FS.lookup_eq_lookupL]
  exact lookupL_of_mem_nodup fs.entries hnd e he

theorem dropLast_concat_of_getLastQ {α : Type} {l : List α} {a : α}
    (h : l.getLast? = some a) : l.dropLast ++ [a] = l := by
  induction l with
  | nil => exact Option.noConfusion h
  | cons x t ih =>
    cases t with
    | nil =>
      have : a = x := by simpa using h.symm
      rw [this]
      rfl
    | cons y t2 =>
      rw [List.getLast?_cons_cons] at h
      rw [List.dropLast_cons₂, List.cons_append, ih h]

theorem readdir_sound (fs : FS) (p : List String) (hnd : NodupKeys fs) :
    ∀ x ∈ fs.readdir p, fs.lookup (p ++ [x.1]) = some x.2 := by
  intro x hx
  unfold FS.readdir at hx
  obtain ⟨e, he, hex⟩ := List.mem_filterMap.1 hx
  obtain ⟨n, hcn, hnx⟩ := Option.map_eq_some'.1 hex
  unfold childName at hcn
  by_cases hdl : e.1.dropLast = p
  · rw [if_pos hdl] at hcn
    have hkey : p ++ [n] = e.1 := by
      rw [← hdl]
      exact dropLast_concat_of_getLastQ hcn
    rw [← hnx]
    dsimp only
    rw [hkey]
    exact lookup_of_mem_nodup fs hnd e he
  · rw [if_neg hdl] at hcn
    exact Option.noConfusion hcn

theorem readdir_names_noBS (fs : FS) (p : List String) (hbs : FS.NoBS fs = true) :
    ∀ x ∈ fs.readdir p, strNoBS x.1 = true := by
  intro x hx
  unfold FS.readdir at hx
  obtain ⟨e, he, hex⟩ := List.mem_filterMap.1 hx
  obtain ⟨n, hcn, hnx⟩ := Option.map_eq_some'.1 hex
  unfold childName at hcn
  by_cases hdl : e.1.dropLast = p
  · rw [if_pos hdl] at hcn
    have hmem : n ∈ e.1 := mem_of_getLastQ hcn
    have hkeys : compsNoBS e.1 = true := List.all_eq_true.1 hbs e he
    rw [← hnx]
    exact List.all_eq_true.1 hkeys n hmem
  · rw [if_neg hdl] at hcn
    exact Option.noConfusion hcn


/-- A packed member is sound for filesystem fs anchored at anchor: its name is
backslash-free and, rebased under the anchor, resolves to a directory (for
trailing-slash names) or to a file holding exactly the member's body. -/
def SoundMember (fs : FS) (anchor : List String) (m : ZEntry) : Prop :=
  strNoBS m.name = true ∧
    (if endsSlash m.name = true then fs.lookup (anchor ++ splitPath m.name) = some .dir
     else fs.lookup (anchor ++ splitPath m.name) = some (.file m.body))

theorem packChildren_sound
    (go : String → String → List ZEntry → List ZEntry × Except Err Unit)
    (srcPath rc : String) (fs : FS) (fn : Visitor) (anchor : List String)
    (hsrc : splitPath srcPath = anchor ++ splitPath rc)
    (hrcbs : strNoBS rc = true)
    (hgo : ∀ c r zw1, splitPath c = anchor ++ splitPath r → strNoBS r = true →
        (go c r zw1).2 = .ok () →
        ∀ m ∈ (go c r zw1).1, m ∈ zw1 ∨ SoundMember fs anchor m) :
    ∀ (l : List (String × FsNode)),
      (∀ x ∈ l, cleanComp x.1 = true) →
      (∀ x ∈ l, strNoBS x.1 = true) →
      (∀ x ∈ l, fs.lookup (splitPath srcPath ++ [x.1]) = some x.2) →
      ∀ (zw : List ZEntry),
        (packChildren go srcPath rc fs fn l zw).2 = .ok () →
        ∀ m ∈ (packChildren go srcPath rc fs fn l zw).1,
          m ∈ zw ∨ SoundMember fs anchor m := by
  intro l
  induction l with
  | nil =>
    intro _ _ _ zw _ m hm
    rw [packChildren] at hm
    exact .inl hm
  | cons x rest ih =>
    intro hcl hbs hlus zw hok m hm
    obtain ⟨name, node⟩ := x
    rw [packChildren] at hm hok
    by_cases hflt : globalFilter name = true
    · rw [if_pos hflt] at hm hok
      exact ih (fun y hy => hcl y (List.mem_cons_of_mem _ hy))
        (fun y hy => hbs y (List.mem_cons_of_mem _ hy))
        (fun y hy => hlus y (List.mem_cons_of_mem _ hy)) zw hok m hm
    · rw [if_neg hflt] at hm hok
      dsimp only at hm hok
      have hcn : cleanComp name = true := hcl (name, node) (List.mem_cons_self _ _)
      have hbsn : strNoBS name = true := hbs (name, node) (List.mem_cons_self _ _)
      have hlu : fs.lookup (splitPath srcPath ++ [name]) = some node :=
        hlus (name, node) (List.mem_cons_self _ _)
      have hsp_tmp : splitPath (pathJoinS rc name) = splitPath rc ++ [name] := by
        rw [splitPath_pathJoinS, splitPath_single hcn]
      have hsp_cur : splitPath (srcPath ++ "/" ++ name) = splitPath srcPath ++ [name] := by
        rw [splitPath_slash_append, splitPath_single hcn]
      have hbs_tmp : strNoBS (pathJoinS rc name) = true := strNoBS_pathJoinS hrcbs hbsn
      have hanch : anchor ++ splitPath (pathJoinS rc name) = splitPath srcPath ++ [name] := by
        rw [hsp_tmp, ← List.append_assoc, ← hsrc]
      have ihr := ih (fun y hy => hcl y (List.mem_cons_of_mem _ hy))
        (fun y hy => hbs y (List.mem_cons_of_mem _ hy))
        (fun y hy => hlus y (List.mem_cons_of_mem _ hy))
      cases hv : fn (srcPath ++ "/" ++ name)
          { name := name, size := node.nodeSize, isDir := node.isDirB } with
      | error e =>
        rw [hv] at hok
        simp at hok
      | ok u =>
        rw [hv] at hm hok
        dsimp only at hm hok
        by_cases hnd : node.isDirB = true
        · rw [if_pos hnd] at hm hok
          cases node with
          | file d => exact absurd hnd (by simp [FsNode.isDirB])
          | dir =>
            rw [packFile_dir_eq srcPath (pathJoinS rc name) zw
                { name := name, size := FsNode.dir.nodeSize, isDir := true } fs rfl]
              at hm hok
            dsimp only at hm hok
            rcases hg : go (srcPath ++ "/" ++ name) (pathJoinS rc name)
                (zw ++ [⟨pathJoinS rc name ++ "/", 0, .bytes ""⟩]) with ⟨zw2, r2⟩
            rw [hg] at hm hok
            rcases r2 with e2 | u2
            · simp at hok
            · dsimp only at hm hok
              have hzw2 : ∀ m2 ∈ zw2, m2 ∈ zw ∨ SoundMember fs anchor m2 := by
                intro m2 hm2
                have hinv2 : splitPath (srcPath ++ "/" ++ name)
                    = anchor ++ splitPath (pathJoinS rc name) := by
                  rw [hsp_cur, hanch]
                have hres := hgo _ _ _ hinv2 hbs_tmp (by rw [hg]) m2 (by rw [hg]; exact hm2)
                rcases hres with h | h
                · rcases List.mem_append.1 h with h3 | h3
                  · exact .inl h3
                  · refine .inr ?_
                    have heq : m2 = ⟨pathJoinS rc name ++ "/", 0, .bytes ""⟩ := by
                      simpa using h3
                    subst heq
                    refine ⟨strNoBS_append hbs_tmp (by decide), ?_⟩
                    rw [if_pos (endsSlash_append_slash (pathJoinS rc name))]
                    show fs.lookup (anchor ++ splitPath (pathJoinS rc name ++ "/"))
                      = some .dir
                    rw [splitPath_append_slash, hanch]
                    exact hlu
                · exact .inr h
              rcases ihr zw2 hok m hm with h | h
              · exact hzw2 m h
              · exact .inr h
        · rw [if_neg hnd] at hm hok
          cases node with
          | dir => exact absurd rfl hnd
          | file d =>
            have hlf : fs.lookup (splitPath (srcPath ++ "/" ++ name)) = some (.file d) := by
              rw [hsp_cur]
              exact hlu
            rw [packFile_file_eq (srcPath ++ "/" ++ name) (pathJoinS rc name) zw
                { name := name, size := (FsNode.file d).nodeSize, isDir := false } fs d
                rfl hlf] at hm hok
            dsimp only at hm hok
            have hends : endsSlash (pathJoinS rc name) = false := by
              unfold pathJoinS
              refine endsSlash_joinComps ?_ ?_
              · exact cleanComps_append (splitPath_clean rc) (splitPath_clean name)
              · rw [splitPath_single hcn]
                simp
            have hfile_sound : SoundMember fs anchor
                ⟨pathJoinS rc name, (FsNode.file d).nodeSize % 2 ^ 32, d⟩ := by
              refine ⟨hbs_tmp, ?_⟩
              rw [if_neg (by simp [hends])]
              show fs.lookup (anchor ++ splitPath (pathJoinS rc name)) = some (.file d)
              rw [hanch]
              exact hlu
            rcases ihr (zw ++ [⟨pathJoinS rc name, (FsNode.file d).nodeSize % 2 ^ 32, d⟩])
                hok m hm with h | h
            · rcases List.mem_append.1 h with h3 | h3
              · exact .inl h3
              · refine .inr ?_
                have heq : m = ⟨pathJoinS rc name, (FsNode.file d).nodeSize % 2 ^ 32, d⟩ := by
                  simpa using h3
                subst heq
                exact hfile_sound
            · exact .inr h

theorem packDir_sound (fuel : Nat) :
    ∀ (srcPath rc : String) (zw : List ZEntry) (fs : FS) (fn : Visitor)
      (anchor : List String),
      FS.WF fs = true → NodupKeys fs → FS.NoBS fs = true →
      strNoBS rc = true →
      splitPath srcPath = anchor ++ splitPath rc →
      (packDir fuel srcPath rc zw fs fn).2 = .ok () →
      ∀ m ∈ (packDir fuel srcPath rc zw fs fn).1,
        m ∈ zw ∨ SoundMember fs anchor m := by
  induction fuel with
  | zero =>
    intro srcPath rc zw fs fn anchor _ _ _ _ _ hok m hm
    rw [packDir] at hok
    simp at hok
  | succ fuel ih =>
    intro srcPath rc zw fs fn anchor hwf hnd hbs hrcbs hsrc hok m hm
    rw [packDir] at hm hok
    cases hl : fs.lookup (splitPath srcPath) with
    | none =>
      rw [hl] at hok
      simp at hok
    | some n =>
      cases n with
      | file d =>
        rw [hl] at hok
        simp at hok
      | dir =>
        rw [hl] at hm hok
        dsimp only at hm hok
        refine packChildren_sound _ srcPath rc fs fn anchor hsrc hrcbs ?_
          (fs.readdir (splitPath srcPath)) (readdir_names_clean fs _ hwf)
          (fun x hx => readdir_names_noBS fs _ hbs x hx)
          (fun x hx => readdir_sound fs _ hnd x hx) zw hok m hm
        intro c r zw1 hinv hrbs hok1 m1 hm1
        exact ih c r zw1 fs fn anchor hwf hnd hbs hrbs hinv hok1 m1 hm1

/-- Every member packToWriter emits without the wrapping root (includeDir
false) from a directory source is sound for the source filesystem anchored at
the source path: directory members name directories of the tree and file
members carry exactly the bytes of the file at the same relative path. -/
theorem packToWriter_sound (srcPath : String) (fn : Visitor) (fs : FS)
    (hwf : FS.WF fs = true) (hnd : NodupKeys fs) (hbs : FS.NoBS fs = true)
    (hdir : fs.lookup (splitPath srcPath) = some .dir)
    (hok : (packToWriter srcPath fn false fs).2 = .ok ()) :
    ∀ m ∈ (packToWriter srcPath fn false fs).1,
      SoundMember fs (splitPath srcPath) m := by
  intro m hm
  unfold packToWriter at hm hok
  rw [hdir] at hm hok
  dsimp only at hm hok
  rcases packDir_sound (fs.entries.length + 1) srcPath "" [] fs fn (splitPath srcPath)
      hwf hnd hbs (by decide) (by rw [splitPath_empty, List.append_nil]) hok m hm with h | h
  · exact absurd h (List.not_mem_nil m)
  · exact h


theorem osCreate_error_eq (fs : FS) (p : List String) :
    (osCreate fs p).1 = fs ∨ (osCreate fs p).2 = .ok () := by
  unfold osCreate
  cases p with
  | nil => exact .inl rfl
  | cons c rest =>
    cases hlk : fs.lookup (c :: rest) with
    | some n =>
      cases n with
      | dir => exact .inl rfl
      | file d => exact .inr rfl
    | none =>
      dsimp only
      by_cases hp : (c :: rest).dropLast.isEmpty = true
      · rw [if_pos hp]
        exact .inr rfl
      · rw [if_neg hp]
        cases hlp : fs.lookup (c :: rest).dropLast with
        | some n =>
          cases n with
          | dir => exact .inr rfl
          | file d => exact .inl rfl
        | none => exact .inl rfl

/-- Any regular file present after extractFile either pre-existed or is the
extracted member itself at destination-joined name carrying the member's
body. -/
theorem extractFile_new_files (f : ZEntry) (destPath : String) (fs : FS)
    (q : List String) (d : FileData)
    (h : ((extractFile f destPath fs).1).lookup q = some (.file d)) :
    fs.lookup q = some (.file d) ∨
      (q = splitPath destPath ++ splitPath f.name ∧ d = f.body) := by
  unfold extractFile at h
  dsimp only at h
  rcases hoc : osCreate (mkdirAll fs (splitPath destPath ++ (splitPath f.name).dropLast)).1
      (splitPath destPath ++ splitPath f.name) with ⟨fs2, r⟩
  rw [hoc] at h
  rcases r with e | u
  · dsimp only at h
    have heq : fs2 = (mkdirAll fs (splitPath destPath ++ (splitPath f.name).dropLast)).1 := by
      rcases osCreate_error_eq
          (mkdirAll fs (splitPath destPath ++ (splitPath f.name).dropLast)).1
          (splitPath destPath ++ splitPath f.name) with h1 | h1
      · rw [hoc] at h1
        exact h1
      · rw [hoc] at h1
        simp at h1
    rw [heq] at h
    exact .inl (mkdirWalk_no_new_file fs [] _ q d h)
  · dsimp only at h
    by_cases hq : q = splitPath destPath ++ splitPath f.name
    · subst hq
      rw [FS.lookup_setNode_self] at h
      refine .inr ⟨rfl, ?_⟩
      injection h with h2
      injection h2 with h3
      exact h3.symm
    · rw [FS.lookup_setNode_other fs2 _ hq] at h
      have h3 : fs2.lookup q
          = ((mkdirAll fs (splitPath destPath ++ (splitPath f.name).dropLast)).1).lookup q := by
        have h4 := osCreate_lookup_other
          (mkdirAll fs (splitPath destPath ++ (splitPath f.name).dropLast)).1 hq
        rw [hoc] at h4
        exact h4
      rw [h3] at h
      exact .inl (mkdirWalk_no_new_file fs [] _ q d h)

/-- Any regular file present after the extraction loop either pre-existed or
is one of the extracted members, at the destination joined with the member's
slash-normalized name, carrying the member's body. -/
theorem extractLoop_new_files (destPath : String) (fn : Visitor) (entries : List String) :
    ∀ (l : List ZEntry) (fs : FS) (q : List String) (d : FileData),
      ((extractLoop destPath fn entries l fs).1).lookup q = some (.file d) →
      fs.lookup q = some (.file d) ∨
        ∃ g ∈ l, q = splitPath destPath ++ splitPath (normSlashes g.name) ∧ d = g.body ∧
          endsSlash (normSlashes g.name) = false := by
  intro l
  induction l with
  | nil =>
    intro fs q d h
    rw [extractLoop] at h
    exact .inl h
  | cons f rest ih =>
    intro fs q d h
    rw [extractLoop] at h
    dsimp only at h
    by_cases hsl : endsSlash (normSlashes f.name) = true
    · rw [if_pos hsl] at h
      by_cases hent : (!entries.isEmpty) = true
      · rw [if_pos hent] at h
        by_cases hie : isEntry (normSlashes f.name) entries = true
        · rw [if_pos hie] at h
          cases hv : fn (normSlashes f.name)
              ({ f with name := normSlashes f.name } : ZEntry).finfo with
          | error e =>
            rw [hv] at h
            exact .inl h
          | ok u =>
            rw [hv] at h
            dsimp only at h
            rcases ih _ q d h with h1 | ⟨g, hg, hr⟩
            · exact .inl (mkdirWalk_no_new_file fs [] _ q d h1)
            · exact .inr ⟨g, List.mem_cons_of_mem f hg, hr⟩
        · rw [if_neg hie] at h
          rcases ih fs q d h with h1 | ⟨g, hg, hr⟩
          · exact .inl h1
          · exact .inr ⟨g, List.mem_cons_of_mem f hg, hr⟩
      · rw [if_neg hent] at h
        cases hv : fn (normSlashes f.name)
            ({ f with name := normSlashes f.name } : ZEntry).finfo with
        | error e =>
          rw [hv] at h
          exact .inl h
        | ok u =>
          rw [hv] at h
          dsimp only at h
          rcases ih _ q d h with h1 | ⟨g, hg, hr⟩
          · exact .inl (mkdirWalk_no_new_file fs [] _ q d h1)
          · exact .inr ⟨g, List.mem_cons_of_mem f hg, hr⟩
    · rw [if_neg hsl] at h
      have hsl2 : endsSlash (normSlashes f.name) = false := by
        simp at hsl
        exact hsl
      have hfile : ∀ fs1 : FS, fs1.lookup q = some (.file d) →
          (extractFile { f with name := normSlashes f.name } destPath fs).1 = fs1 →
          fs.lookup q = some (.file d) ∨
            ∃ g ∈ f :: rest, q = splitPath destPath ++ splitPath (normSlashes g.name) ∧
              d = g.body ∧ endsSlash (normSlashes g.name) = false := by
        intro fs1 hl1 hfs1
        rcases extractFile_new_files { f with name := normSlashes f.name } destPath fs q d
            (by rw [hfs1]; exact hl1) with h1 | ⟨hq1, hd1⟩
        · exact .inl h1
        · exact .inr ⟨f, List.mem_cons_self f rest, hq1, hd1, hsl2⟩
      by_cases hent : (!entries.isEmpty) = true
      · rw [if_pos hent] at h
        by_cases hie : isEntry (normSlashes f.name) entries = true
        · rw [if_pos hie] at h
          cases hv : fn (normSlashes f.name)
              ({ f with name := normSlashes f.name } : ZEntry).finfo with
          | error e =>
            rw [hv] at h
            exact .inl h
          | ok u =>
            rw [hv] at h
            dsimp only at h
            rcases hef : extractFile { f with name := normSlashes f.name } destPath fs
              with ⟨fs1, r⟩
            rw [hef] at h
            rcases r with e1 | u1
            · dsimp only at h
              exact hfile fs1 h (by rw [hef])
            · dsimp only at h
              rcases ih fs1 q d h with h1 | ⟨g, hg, hr⟩
              · exact hfile fs1 h1 (by rw [hef])
              · exact .inr ⟨g, List.mem_cons_of_mem f hg, hr⟩
        · rw [if_neg hie] at h
          rcases ih fs q d h with h1 | ⟨g, hg, hr⟩
          · exact .inl h1
          · exact .inr ⟨g, List.mem_cons_of_mem f hg, hr⟩
      · rw [if_neg hent] at h
        cases hv : fn (normSlashes f.name)
            ({ f with name := normSlashes f.name } : ZEntry).finfo with
        | error e =>
          rw [hv] at h
          exact .inl h
        | ok u =>
          rw [hv] at h
          dsimp only at h
          rcases hef : extractFile { f with name := normSlashes f.name } destPath fs
            with ⟨fs1, r⟩
          rw [hef] at h
          rcases r with e1 | u1
          · dsimp only at h
            exact hfile fs1 h (by rw [hef])
          · dsimp only at h
            rcases ih fs1 q d h with h1 | ⟨g, hg, hr⟩
            · exact hfile fs1 h1 (by rw [hef])
            · exact .inr ⟨g, List.mem_cons_of_mem f hg, hr⟩

/-- Any regular file present after ExtractToFunc either pre-existed or is one
of the archive's members at the normalized destination. -/
theorem ExtractToFunc_new_files (z : ZipArchive) (destPath : String) (fn : Visitor)
    (entries : List String) (fs : FS) (q : List String) (d : FileData)
    (h : ((z.ExtractToFunc destPath fn entries fs).1).lookup q = some (.file d)) :
    fs.lookup q = some (.file d) ∨
      ∃ g ∈ z.File, q = splitPath (normSlashes destPath) ++ splitPath (normSlashes g.name)
        ∧ d = g.body ∧ endsSlash (normSlashes g.name) = false := by
  unfold ZipArchive.ExtractToFunc at h
  dsimp only at h
  rcases extractLoop_new_files (normSlashes destPath) fn entries z.File _ q d h with h1 | h1
  · exact .inl (mkdirWalk_no_new_file fs [] _ q d h1)
  · exact .inr h1


/-- Archive with a single file member named ".git", for the round-trip
counterexample. -/
def arc9 : ZipArchive :=
  ⟨"a.zip", 0, false, false, some [⟨".git", 1, .bytes "x"⟩], [], []⟩

/-- Counterexample to the literal round-trip: extracting arc9 materializes
the file d/.git, but packing the extracted tree back emits no members at all
(globalFilter silently drops the name), so the repacked archive's extracted
tree cannot match. -/
theorem c9_git_filter_counterexample :
    ((arc9.ExtractTo "d" [] ⟨[]⟩).1).lookup ["d", ".git"] = some (.file (.bytes "x")) ∧
    (packToWriter "d" defaultPackFunc false (arc9.ExtractTo "d" [] ⟨[]⟩).1).1 = [] ∧
    (packToWriter "d" defaultPackFunc false (arc9.ExtractTo "d" [] ⟨[]⟩).1).2 = .ok () :=
  ⟨rfl, rfl, rfl⟩

/-- Claim C9 (amended): extract-then-pack is a containment, not an equality.
If archive A is extracted to D, the tree at D is packed into a fresh archive
B (the writer-level PackTo pipeline without the wrapping root), and B is in
turn extracted to D2, then every regular file the second extraction leaves on
disk either pre-existed or carries exactly the bytes that A's extracted tree
holds at the same relative path.  Full equality of the two trees fails:
members whose names match the global filter (e.g. ".git") are extracted from
A but silently dropped on re-pack, see the counterexample. -/
theorem c9_round_trip_containment (A B : ZipArchive) (D D2 Bname : String)
    (fs0 fs1 fs2 fs3 : FS) (ms : List ZEntry)
    (hfs1 : fs1 = (A.ExtractTo D [] fs0).1)
    (hms : ms = (packToWriter D defaultPackFunc false fs1).1)
    (hpok : (packToWriter D defaultPackFunc false fs1).2 = .ok ())
    (hB : B = ⟨Bname, 0, false, false, some ms, [], []⟩)
    (hwf : FS.WF fs1 = true) (hnd : NodupKeys fs1) (hbs : FS.NoBS fs1 = true)
    (hdir : fs1.lookup (splitPath D) = some .dir)
    (hfs3 : fs3 = (B.ExtractTo D2 [] fs2).1) :
    ∀ q d, fs3.lookup q = some (.file d) →
      fs2.lookup q = some (.file d) ∨
        ∃ r, q = splitPath (normSlashes D2) ++ r ∧
          fs1.lookup (splitPath D ++ r) = some (.file d) := by
  intro q d h
  rw [hfs3] at h
  rcases ExtractToFunc_new_files B D2 defaultExtractFunc [] fs2 q d h
    with h1 | ⟨g, hg, hq, hd, hns⟩
  · exact .inl h1
  · have hgmem : g ∈ (packToWriter D defaultPackFunc false fs1).1 := by
      rw [hB] at hg
      rw [← hms]
      exact hg
    obtain ⟨hgbs, hif⟩ :=
      packToWriter_sound D defaultPackFunc fs1 hwf hnd hbs hdir hpok g hgmem
    have hnorm : normSlashes g.name = g.name := normSlashes_id_of_noBS hgbs
    rw [hnorm] at hq hns
    rw [if_neg (by simp [hns])] at hif
    refine .inr ⟨splitPath g.name, hq, ?_⟩
    rw [hif, hd]

/-- The single-file archive driving the C9 witness. -/
def arc9w : ZipArchive :=
  ⟨"a.zip", 0, false, false, some [⟨"a.txt", 2, .bytes "hi"⟩], [], []⟩

/-- First extraction of the witness archive. -/
def fs1c : FS := (arc9w.ExtractTo "d" [] ⟨[]⟩).1

/-- The members packed back from the witness's extracted tree. -/
def msc : List ZEntry := (packToWriter "d" defaultPackFunc false fs1c).1

/-- The repacked witness archive. -/
def arc9b : ZipArchive := ⟨"b.zip", 0, false, false, some msc, [], []⟩

/-- Second extraction, of the repacked witness archive. -/
def fs3c : FS := (arc9b.ExtractTo "e" [] ⟨[]⟩).1

theorem c9_round_trip_containment_witness :
    (⟨[]⟩ : FS).lookup ["e", "a.txt"] = some (.file (.bytes "hi")) ∨
      ∃ r, ["e", "a.txt"] = splitPath (normSlashes "e") ++ r ∧
        fs1c.lookup (splitPath "d" ++ r) = some (.file (.bytes "hi")) :=
  c9_round_trip_containment arc9w arc9b "d" "e" "b.zip" ⟨[]⟩ fs1c ⟨[]⟩ fs3c msc
    rfl rfl rfl rfl (by decide) (by unfold NodupKeys; decide) (by decide) rfl rfl
    ["e", "a.txt"] (.bytes "hi") rfl


end Cae
